import Mathlib

/-!
Verification development for the MANTIS validator ledger (`ledger.py`).

The Python source is shallowly embedded: bytes are lists of naturals
(each below 256 by construction), Python strings are lists of characters,
`dict`s are insertion-ordered association lists, numbers are rationals,
fallible code returns `Option`.  External cryptographic libraries
(`timelock.Timelock.tld`, X25519, HKDF, ChaCha20-Poly1305) and two
standard-library behaviours treated as black boxes (`json.loads`,
UTF-8 decoding) are passed in as a record of primitives; SHA-256
(`hashlib.sha256`) is implemented concretely.
-/

namespace Mantis

/-- Bytes are modelled as lists of naturals, each below 256 by construction. -/
abbrev Bytes := List Nat

/-- Python strings are modelled as lists of characters. -/
abbrev PyStr := List Char

/-! ## SHA-256 (`hashlib.sha256(...).digest()`) -/

/-- 32-bit right rotation on a word below 2^32. -/
def rotr (n x : Nat) : Nat := ((x >>> n) ||| (x <<< (32 - n))) % 4294967296

/-- Bitwise complement on a 32-bit word. -/
def wnot (x : Nat) : Nat := 4294967295 ^^^ x

/-- The 64 SHA-256 round constants (FIPS 180-4, in decimal). -/
def sha256K : List Nat :=
  [1116352408, 1899447441, 3049323471, 3921009573, 961987163, 1508970993,
   2453635748, 2870763221, 3624381080, 310598401, 607225278, 1426881987,
   1925078388, 2162078206, 2614888103, 3248222580, 3835390401, 4022224774,
   264347078, 604807628, 770255983, 1249150122, 1555081692, 1996064986,
   2554220882, 2821834349, 2952996808, 3210313671, 3336571891, 3584528711,
   113926993, 338241895, 666307205, 773529912, 1294757372, 1396182291,
   1695183700, 1986661051, 2177026350, 2456956037, 2730485921, 2820302411,
   3259730800, 3345764771, 3516065817, 3600352804, 4094571909, 275423344,
   430227734, 506948616, 659060556, 883997877, 958139571, 1322822218,
   1537002063, 1747873779, 1955562222, 2024104815, 2227730452, 2361852424,
   2428436474, 2756734187, 3204031479, 3329325298]

/-- The SHA-256 initial hash value (FIPS 180-4, in decimal). -/
def sha256H0 : List Nat :=
  [1779033703, 3144134277, 1013904242, 2773480762, 1359893119, 2600822924,
   528734635, 1541459225]

/-- Big-endian byte decomposition of a natural, `len` bytes wide. -/
def natToBytesBE (n len : Nat) : Bytes :=
  (List.range len).map (fun i => (n >>> (8 * (len - 1 - i))) % 256)

/-- SHA-256 message padding: append 0x80, zero bytes, and the 64-bit bit length. -/
def sha256Pad (msg : Bytes) : Bytes :=
  let L := msg.length
  let k := (64 + 56 - ((L + 1) % 64)) % 64
  msg ++ [0x80] ++ List.replicate k 0 ++ natToBytesBE (8 * L) 8

/-- Split a byte list into 64-byte blocks (fuel-driven structural recursion). -/
def chunks64Aux : Nat → Bytes → List Bytes
  | 0, _ => []
  | _, [] => []
  | fuel + 1, l => l.take 64 :: chunks64Aux fuel (l.drop 64)

/-- Split a byte list into 64-byte blocks. -/
def chunks64 (l : Bytes) : List Bytes := chunks64Aux l.length l

/-- Assemble big-endian 32-bit words from bytes, 4 bytes per word. -/
def bytesToWords : Bytes → List Nat
  | b0 :: b1 :: b2 :: b3 :: rest =>
      (((b0 * 256 + b1) * 256 + b2) * 256 + b3) :: bytesToWords rest
  | _ => []

/-- Extend a 16-word message schedule by `n` additional words. -/
def sha256Extend (w : List Nat) : Nat → List Nat
  | 0 => w
  | n + 1 =>
      let m := w.length
      let s0 := rotr 7 (w.getD (m - 15) 0) ^^^ rotr 18 (w.getD (m - 15) 0) ^^^ (w.getD (m - 15) 0 >>> 3)
      let s1 := rotr 17 (w.getD (m - 2) 0) ^^^ rotr 19 (w.getD (m - 2) 0) ^^^ (w.getD (m - 2) 0 >>> 10)
      sha256Extend (w ++ [(w.getD (m - 16) 0 + s0 + w.getD (m - 7) 0 + s1) % 4294967296]) n

/-- One SHA-256 compression round. -/
def sha256Round (st : List Nat) (kw : Nat × Nat) : List Nat :=
  match st with
  | [a, b, c, d, e, f, g, h] =>
      let S1 := rotr 6 e ^^^ rotr 11 e ^^^ rotr 25 e
      let ch := (e &&& f) ^^^ (wnot e &&& g)
      let temp1 := (h + S1 + ch + kw.1 + kw.2) % 4294967296
      let S0 := rotr 2 a ^^^ rotr 13 a ^^^ rotr 22 a
      let maj := (a &&& b) ^^^ (a &&& c) ^^^ (b &&& c)
      let temp2 := (S0 + maj) % 4294967296
      [(temp1 + temp2) % 4294967296, a, b, c, (d + temp1) % 4294967296, e, f, g]
  | _ => st

/-- Process one 64-byte block, updating the running hash state. -/
def sha256Block (h : List Nat) (block : Bytes) : List Nat :=
  let w := sha256Extend (bytesToWords block) 48
  let st := (sha256K.zip w).foldl sha256Round h
  (h.zip st).map (fun p => (p.1 + p.2) % 4294967296)

/-- SHA-256 of a byte list, as 32 bytes.  Models `hashlib.sha256(...).digest()`;
the source's `_sha256(*parts)` feeds the concatenation of its parts. -/
def sha256 (msg : Bytes) : Bytes :=
  ((chunks64 (sha256Pad msg)).foldl sha256Block sha256H0).flatMap (natToBytesBE · 4)

/-! ## Python string / bytes helpers -/

/-- ASCII whitespace, as skipped by `bytes.fromhex` and stripped by `str.strip`. -/
def isPySpace (c : Char) : Bool :=
  c.toNat = 32 || c.toNat = 9 || c.toNat = 10 || c.toNat = 13 || c.toNat = 11 || c.toNat = 12

/-- Value of one hexadecimal digit character. -/
def hexDigitVal (c : Char) : Option Nat :=
  if 48 ≤ c.toNat ∧ c.toNat ≤ 57 then some (c.toNat - 48)
  else if 97 ≤ c.toNat ∧ c.toNat ≤ 102 then some (c.toNat - 87)
  else if 65 ≤ c.toNat ∧ c.toNat ≤ 70 then some (c.toNat - 55)
  else none

/-- Decode pairs of hexadecimal digits into bytes. -/
def hexPairs : PyStr → Option Bytes
  | [] => some []
  | [_] => none
  | c1 :: c2 :: rest => do
      let h ← hexDigitVal c1
      let l ← hexDigitVal c2
      let r ← hexPairs rest
      pure ((16 * h + l) :: r)

/-- Models Python `bytes.fromhex`: ASCII whitespace is skipped, then the string
must consist of pairs of hexadecimal digits; `none` models the raised `ValueError`. -/
def bytesFromHex (s : PyStr) : Option Bytes :=
  hexPairs (s.filter (fun c => ¬ isPySpace c))

/-- Models Python `str.lower()` restricted to ASCII letters (the strings compared
in the source are hexadecimal key strings). -/
def lowerAscii (s : PyStr) : PyStr :=
  s.map (fun c => if 65 ≤ c.toNat ∧ c.toNat ≤ 90 then Char.ofNat (c.toNat + 32) else c)

/-- Models Python `str.strip()` (ASCII whitespace at both ends). -/
def pstrip (s : PyStr) : PyStr :=
  ((s.dropWhile isPySpace).reverse.dropWhile isPySpace).reverse

/-- UTF-8 encoding of a single code point. -/
def utf8EncodeNat (n : Nat) : Bytes :=
  if n < 0x80 then [n]
  else if n < 0x800 then [0xC0 ||| (n >>> 6), 0x80 ||| (n &&& 0x3F)]
  else if n < 0x10000 then
    [0xE0 ||| (n >>> 12), 0x80 ||| ((n >>> 6) &&& 0x3F), 0x80 ||| (n &&& 0x3F)]
  else
    [0xF0 ||| (n >>> 18), 0x80 ||| ((n >>> 12) &&& 0x3F), 0x80 ||| ((n >>> 6) &&& 0x3F),
     0x80 ||| (n &&& 0x3F)]

/-- Models Python `str.encode("utf-8")`. -/
def strToUtf8 (s : PyStr) : Bytes := s.flatMap (fun c => utf8EncodeNat c.toNat)

/-- Models Python `bytes.decode("ascii")`: fails on any byte at or above 128. -/
def asciiDecode (b : Bytes) : Option PyStr :=
  if b.all (· < 128) then some (b.map Char.ofNat) else none

/-- Decimal digit characters of a natural (fuel-driven, most significant first). -/
def natDecDigitsAux : Nat → Nat → List Nat
  | 0, _ => []
  | fuel + 1, n => if n < 10 then [n] else natDecDigitsAux fuel (n / 10) ++ [n % 10]

/-- Models Python `str(i).encode("ascii")` for an integer `i`. -/
def intToDecBytes (i : Int) : Bytes :=
  let digits := (natDecDigitsAux (i.natAbs + 1) i.natAbs).map (· + 48)
  if i < 0 then 45 :: digits else digits

/-- Last occurrence of the separator: splits `s` at the last occurrence of `sep`,
as Python `s.rsplit(sep, 1)` does when the separator occurs; `none` when it does
not occur (where the source's tuple unpacking raises `ValueError`). -/
def rsplitOnce (s sep : PyStr) : Option (PyStr × PyStr) :=
  let rec go : PyStr → Option (PyStr × PyStr)
    | [] => none
    | c :: rest =>
        match go rest with
        | some (a, b) => some (c :: a, b)
        | none =>
            if (c :: rest).take sep.length = sep
            then some ([], (c :: rest).drop sep.length)
            else none
  go s

/-! ## JSON values (results of `json.loads`) -/

/-- A decoded JSON value as produced by Python's `json.loads`. -/
inductive JVal
  | null
  | bool (b : Bool)
  | num (q : Rat)
  | str (s : PyStr)
  | arr (items : List JVal)
  | obj (fields : List (PyStr × JVal))

/-- Models Python dict lookup `d.get(k)` on an object built from an association
list by successive assignment: the last binding of a key wins. -/
def jGet (j : JVal) (k : PyStr) : Option JVal :=
  match j with
  | .obj fields => fields.foldl (fun acc p => if p.1 = k then some p.2 else acc) none
  | _ => none

/-- Dict lookup restricted to string values: `none` when the key is missing or the
value is not a string (where the source's subsequent string operation raises). -/
def jGetStr (j : JVal) (k : PyStr) : Option PyStr :=
  match jGet j k with
  | some (.str s) => some s
  | _ => none

/-- Nested dict lookup `payload[k1][k2]` restricted to string values. -/
def jGetStr2 (j : JVal) (k1 k2 : PyStr) : Option PyStr :=
  match jGet j k1 with
  | some inner => jGetStr inner k2
  | none => none

/-- Whether the value is a dict (`isinstance(x, dict)`). -/
def jIsObj : JVal → Bool
  | .obj _ => true
  | _ => false

/-- Key membership `k in d` for a dict value. -/
def jHasKey (j : JVal) (k : PyStr) : Bool :=
  match j with
  | .obj fields => fields.any (fun p => p.1 = k)
  | _ => false

/-- Python truthiness of a decoded JSON value. -/
def jTruthy : JVal → Bool
  | .null => false
  | .bool b => b
  | .num q => ¬ (q = 0)
  | .str s => ¬ (s = [])
  | .arr l => ¬ l.isEmpty
  | .obj f => ¬ f.isEmpty

/-- Digits-only decimal parse used by `pyToInt` on strings. -/
def decDigitsVal : PyStr → Option Nat
  | [] => none
  | l => l.foldl (fun acc c =>
      match acc, hexDigitVal c with
      | some a, some d => if d < 10 then some (10 * a + d) else none
      | _, _ => none) (some 0)

/-- Models Python `int(x)` on a decoded JSON value: truncation for numbers,
decimal parse (optional sign and surrounding whitespace) for strings, 0/1 for
booleans; `none` models the raised `TypeError`/`ValueError`.  (Python's `json`
module can also produce IEEE infinities, which `int` rejects with an error the
source does not catch; numbers are modelled as rationals, so that corner is
outside this model.) -/
def pyToInt : JVal → Option Int
  | .num q => some (q.num.tdiv (q.den : Int))
  | .bool b => some (if b then 1 else 0)
  | .str s =>
      let t := pstrip s
      match t with
      | c :: rest =>
          if c.toNat = 45 then (decDigitsVal rest).map (fun n => -(n : Int))
          else if c.toNat = 43 then (decDigitsVal rest).map (fun n => (n : Int))
          else (decDigitsVal t).map (fun n => (n : Int))
      | [] => none
  | _ => none

/-! ## Configuration and external primitives -/

/-- One entry of `config.CHALLENGES`. -/
structure Challenge where
  ticker : PyStr
  dim : Nat
  blocks_ahead : Nat

/-- Modelled from the spec: the parts of the `config` module (not under `src/`)
that the ledger reads — the challenge list with per-challenge ticker, embedding
dimension and label horizon, the display-name map `CHALLENGE_NAME_TO_TICKER`, the
sampling interval `SAMPLE_EVERY`, the anti-gaming bound `MAX_UNCHANGED_TIMESTEPS`
(already coerced by the source's `int(... or 0)`), and the owner public key
`OWNER_HPKE_PUBLIC_KEY_HEX` (the `getattr` default is the empty string).
`CHALLENGE_MAP` and `ASSET_EMBEDDING_DIMS` are keyed by ticker and derived from
the challenge list. -/
structure Config where
  challenges : List Challenge
  nameToTicker : List (PyStr × PyStr)
  sampleEvery : Nat
  maxUnchanged : Nat
  ownerPkHex : PyStr

/-- Tickers of the configured challenges (the keys of `CHALLENGE_MAP`). -/
def Config.tickers (cfg : Config) : List PyStr := cfg.challenges.map (·.ticker)

/-- `config.ASSET_EMBEDDING_DIMS.get(t)`. -/
def Config.assetDim (cfg : Config) (t : PyStr) : Option Nat :=
  (cfg.challenges.find? (fun c => c.ticker = t)).map (·.dim)

/-- `config.CHALLENGE_NAME_TO_TICKER.get(k)`. -/
def Config.nameTicker (cfg : Config) (k : PyStr) : Option PyStr :=
  (cfg.nameToTicker.find? (fun p => p.1 = k)).map (·.2)

/-- Result of the external `timelock` library's `tld`: a Python `str` or `bytes`. -/
inductive TldResult
  | str (s : PyStr)
  | bytes (b : Bytes)

/-- The external primitives the ledger calls, passed in as a record:
`tld` (time-lock decryption; `none` models a raised exception),
`derivePke` (X25519 public key from a 32-byte private scalar),
`exchange` (X25519 ECDH), `hkdf` (HKDF-SHA256 expansion to the given length),
`chachaDecrypt` (ChaCha20-Poly1305 `decrypt(nonce, ct, aad)` keyed by the first
argument; `none` models the authentication-failure exception),
`utf8Decode` (Python `bytes.decode("utf-8")`), and
`jsonLoads` (Python `json.loads` on a string; `none` models a parse error). -/
structure Prims where
  tld : Bytes → Bytes → Option TldResult
  derivePke : Bytes → Bytes
  exchange : Bytes → Bytes → Bytes
  hkdf : Bytes → Bytes → Nat → Bytes
  chachaDecrypt : Bytes → Bytes → Bytes → Bytes → Option Bytes
  utf8Decode : Bytes → Option PyStr
  jsonLoads : PyStr → Option JVal

/-- The HKDF info string `b"mantis-owner-wrap"`. -/
def ownerWrapInfo : Bytes := strToUtf8 ("mantis-owner-wrap".toList)

/-- Models `_hkdf_key_nonce`: HKDF-SHA256 output of `key_len + nonce_len` bytes,
split into key and nonce. -/
def hkdf_key_nonce (prims : Prims) (shared info : Bytes) (key_len nonce_len : Nat) :
    Bytes × Bytes :=
  let out := prims.hkdf shared info (key_len + nonce_len)
  (out.take key_len, out.drop key_len)

/-- Models `_binding(hk, rnd, owner_pk, pke)`:
`SHA256(hk.encode ++ b":" ++ str(rnd).encode ++ b":" ++ owner_pk ++ b":" ++ pke)`. -/
def binding (hk : PyStr) (rnd : Int) (owner_pk pke : Bytes) : Bytes :=
  sha256 (strToUtf8 hk ++ [58] ++ intToDecBytes rnd ++ [58] ++ owner_pk ++ [58] ++ pke)

/-- The commitment preimage exactly as the claim's sentence words it: the hotkey
context, a single ":" separator, the round, the owner public key and the
ephemeral public key — stated for refinement comparison with the source's
`binding`, which inserts ":" between every pair of components. -/
def bindingSpecWorded (hk : PyStr) (rnd : Int) (owner_pk pke : Bytes) : Bytes :=
  sha256 (strToUtf8 hk ++ [58] ++ intToDecBytes rnd ++ owner_pk ++ pke)

/-- Normalisation of the time-lock output in `_decrypt_v2_payload` lines 86–97:
a `str` result is hex-decoded when possible and UTF-8 encoded otherwise; a
128-byte `bytes` result that is ASCII hex is hex-decoded, other `bytes` are kept. -/
def normalizeSkeK : TldResult → Bytes
  | .str s =>
      match bytesFromHex s with
      | some b => b
      | none => strToUtf8 s
  | .bytes b =>
      if b.length = 128 then
        match asciiDecode b with
        | none => b
        | some chars =>
            match bytesFromHex chars with
            | some b' => b'
            | none => b
      else b

/-- The configured owner key, stripped (`getattr(config, ..., "").strip()`). -/
def configuredOwnerHex (cfg : Config) : PyStr := pstrip cfg.ownerPkHex

/-- Stage of `_decrypt_v2_payload` after the binding gate (lines 85–114):
time-lock unwrap of `W_time.ct`, length and ephemeral-key checks, ECDH and
HKDF, authenticated unwrap of `W_owner`, cross-check against the time-locked
content key, and authenticated decryption of `C`. -/
def decryptV2AfterBinding (prims : Prims) (payload : JVal) (s : Bytes)
    (bnd owner_pk pke : Bytes) : Option Bytes :=
  match (jGetStr2 payload ("W_time".toList) ("ct".toList)).bind bytesFromHex with
  | none => none
  | some wtime =>
    match prims.tld wtime s with
    | none => none
    | some raw =>
      let skeK := normalizeSkeK raw
      if skeK.length = 64 then
        let ske := skeK.take 32
        let key := skeK.drop 32
        if prims.derivePke ske = pke then
          let shared := prims.exchange ske owner_pk
          let k1 := (hkdf_key_nonce prims shared ownerWrapInfo 32 12).1
          match (jGetStr2 payload ("W_owner".toList) ("nonce".toList)).bind bytesFromHex with
          | none => none
          | some nonce =>
            match (jGetStr2 payload ("W_owner".toList) ("ct".toList)).bind bytesFromHex with
            | none => none
            | some wct =>
              match prims.chachaDecrypt k1 nonce wct bnd with
              | none => none
              | some wrapped =>
                if wrapped = key then
                  match (jGetStr2 payload ("C".toList) ("nonce".toList)).bind bytesFromHex with
                  | none => none
                  | some cn =>
                    match (jGetStr2 payload ("C".toList) ("ct".toList)).bind bytesFromHex with
                    | none => none
                    | some cct => prims.chachaDecrypt key cn cct bnd
                else none
        else none
      else none

/-- Stage of `_decrypt_v2_payload` after the owner-key gate (lines 80–114):
decode the configured key and the payload's ephemeral key, recompute the
binding commitment, compare it with the payload's declared binding, and
continue with `decryptV2AfterBinding`.  Every lookup, hex-decoding or
coercion failure models an exception caught by the source's blanket
`except`, hence yields `none`. -/
def decryptV2AfterOwner (cfg : Config) (prims : Prims) (payload : JVal) (s : Bytes) :
    Option Bytes :=
  match bytesFromHex (configuredOwnerHex cfg) with
  | none => none
  | some owner_pk =>
    match (jGetStr2 payload ("W_owner".toList) ("pke".toList)).bind bytesFromHex with
    | none => none
    | some pke =>
      match jGetStr payload ("hk".toList) with
      | none => none
      | some hk =>
        match (jGet payload ("round".toList)).bind pyToInt with
        | none => none
        | some rnd =>
          match (jGetStr payload ("binding".toList)).bind bytesFromHex with
          | none => none
          | some declared =>
            if declared = binding hk rnd owner_pk pke then
              decryptV2AfterBinding prims payload s (binding hk rnd owner_pk pke) owner_pk pke
            else none

/-- Models `_decrypt_v2_payload(payload, sig, tlock)`.  `sig = none` models a
missing signature and `some []` an empty one (both falsy in the source); an
unconfigured owner key or a case-insensitive mismatch between a string
`owner_pk` field and the configured key aborts; all later failures are handled
in the two stage functions.  `none` is the only failure signal — the source
wraps the whole body in `try ... except Exception: return None`. -/
def decrypt_v2_payload (cfg : Config) (prims : Prims) (payload : JVal) :
    Option Bytes → Option Bytes
  | none => none
  | some s =>
    if s = [] then none
    else if configuredOwnerHex cfg = [] then none
    else
      match jGet payload ("owner_pk".toList) with
      | some (.str p) =>
          if lowerAscii p = lowerAscii (configuredOwnerHex cfg) then
            decryptV2AfterOwner cfg prims payload s
          else none
      | _ => decryptV2AfterOwner cfg prims payload s

/-! ## Insertion-ordered dictionaries (Python `dict`) -/

/-- Python dict assignment `d[k] = v`: updates the first binding in place
(Python preserves a key's insertion position), appends otherwise. -/
def dictSet {α β : Type} [DecidableEq α] : List (α × β) → α → β → List (α × β)
  | [], k, v => [(k, v)]
  | p :: t, k, v => if p.1 = k then (k, v) :: t else p :: dictSet t k v

/-- Python dict lookup `d.get(k)`. -/
def dictLookup {α β : Type} [DecidableEq α] : List (α × β) → α → Option β
  | [], _ => none
  | p :: t, k => if p.1 = k then some p.2 else dictLookup t k

/-- Python `d.setdefault(k, default)` followed by a mutation of the entry. -/
def dictModify {α β : Type} [DecidableEq α] : List (α × β) → α → β → (β → β) → List (α × β)
  | [], k, d, f => [(k, f d)]
  | p :: t, k, d, f => if p.1 = k then (k, f p.2) :: t else p :: dictModify t k d f

/-- Python `d.pop(k, None)` / `del d[k]` (first binding). -/
def dictRemove {α β : Type} [DecidableEq α] : List (α × β) → α → List (α × β)
  | [], _ => []
  | p :: t, k => if p.1 = k then t else p :: dictRemove t k

/-! ## Submission validator -/

/-- The all-zero vector of a challenge's dimension. -/
def zeroVec (dim : Nat) : List Rat := List.replicate dim 0

/-- Models `_zero_vecs`: one all-zero vector per configured challenge. -/
def zero_vecs (cfg : Config) : List (PyStr × List Rat) :=
  cfg.challenges.foldl (fun acc c => dictSet acc c.ticker (zeroVec c.dim)) []

/-- Numeric value of a JSON element accepted by `isinstance(v, (int, float))`
(Python booleans are integers, so `true`/`false` count as 1/0). -/
def numVal : JVal → Option Rat
  | .num q => some q
  | .bool b => some (if b then 1 else 0)
  | _ => none

/-- `all(isinstance(v, (int, float)) and -1 <= v <= 1 for v in vec)`, collecting
the numeric values. -/
def vecValsAux : List JVal → Option (List Rat)
  | [] => some []
  | x :: rest =>
      match numVal x, vecValsAux rest with
      | some q, some r => if -1 ≤ q ∧ q ≤ 1 then some (q :: r) else none
      | _, _ => none

/-- A candidate vector: a list of exactly `dim` elements, each a number in
`[-1, 1]`; returns the numeric values (`[float(v) for v in vec]`). -/
def vecVals (dim : Nat) : JVal → Option (List Rat)
  | .arr l => if l.length = dim then vecValsAux l else none
  | _ => none

/-- The vector assigned in the positional (list) branch: the candidate when it
is valid for the challenge, the all-zero vector otherwise. -/
def arrVal (p : JVal × Challenge) : List Rat :=
  match vecVals p.2.dim p.1 with
  | some v => v
  | none => zeroVec p.2.dim

/-- One key of the mapping branch of `_validate_submission` (lines 205–216):
skip the reserved `hotkey` key, resolve ticker or display name, and overwrite
the ticker's vector only when the candidate has that ticker's configured
dimension and all elements in range. -/
def validateField (cfg : Config) (out : List (PyStr × List Rat)) (p : PyStr × JVal) :
    List (PyStr × List Rat) :=
  if p.1 = ("hotkey".toList) then out
  else
    match (if p.1 ∈ cfg.tickers then some p.1 else cfg.nameTicker p.1) with
    | none => out
    | some ticker =>
        if ticker = [] then out
        else
          match cfg.assetDim ticker with
          | none => out
          | some dim =>
              match vecVals dim p.2 with
              | some v => dictSet out ticker v
              | none => out

/-- Models `_validate_submission(sub)`: a positionally aligned list of vectors,
or a mapping keyed by ticker or display name starting from all-zero vectors,
or all-zero vectors for any other shape. -/
def validate_submission (cfg : Config) (sub : JVal) : List (PyStr × List Rat) :=
  match sub with
  | .arr l =>
      if l.length = cfg.challenges.length then
        (l.zip cfg.challenges).foldl (fun out p => dictSet out p.2.ticker (arrVal p)) []
      else zero_vecs cfg
  | .obj fields => fields.foldl (validateField cfg) (zero_vecs cfg)
  | _ => zero_vecs cfg

/-! ## Ledger state -/

/-- One sample of a challenge series: hotkey insertion order, price, and the
per-hotkey embedding vectors (the source's `np.float16` storage is modelled as
the identity on the rational values). -/
structure Sample where
  hotkeys : List PyStr
  price : Option Rat
  emb : List (PyStr × List Rat)

/-- The `setdefault` default `{"hotkeys": [], "price": None, "emb": {}}`. -/
def emptySample : Sample := ⟨[], none, []⟩

/-- Models `ChallengeData`. -/
structure ChallengeData where
  dim : Nat
  blocks_ahead : Nat
  sidx : List (Int × Sample)

/-- Models `ChallengeData.set_price`. -/
def ChallengeData.set_price (ch : ChallengeData) (i : Int) (p : Rat) : ChallengeData :=
  { ch with sidx := dictModify ch.sidx i emptySample (fun s => { s with price := some p }) }

/-- The sample mutation of `set_emb`: store the vector under the hotkey and
append the hotkey to the order list when new. -/
def sampleAfterSetEmb (s : Sample) (hk : PyStr) (vec : List Rat) : Sample :=
  { s with emb := dictSet s.emb hk vec,
           hotkeys := if hk ∈ s.hotkeys then s.hotkeys else s.hotkeys ++ [hk] }

/-- Models `ChallengeData.set_emb`: store the vector and append the hotkey to the
order list when new. -/
def ChallengeData.set_emb (ch : ChallengeData) (i : Int) (hk : PyStr) (vec : List Rat) :
    ChallengeData :=
  { ch with sidx := dictModify ch.sidx i emptySample (fun s => sampleAfterSetEmb s hk vec) }

/-- A raw pending entry: the stored ciphertext bytes, abstracted by whether
`json.loads(raw.decode())` succeeds (`parsed j`) or raises (`garbage`, which the
source maps to `{}`; empty bytes take the same `{}` path by falsiness). -/
inductive RawPayload
  | parsed (j : JVal)
  | garbage

/-- Models the `DataLog` state: block sequence, challenge series, pending raw
payloads and the beacon-signature cache.  (`self.tlock` is part of `Prims`;
`self._lock` serialises access and has no state content in this single-writer
model.) -/
structure DataLogState where
  blocks : List Int
  challenges : List (PyStr × ChallengeData)
  raw_payloads : List (Nat × List (PyStr × RawPayload))
  drand_cache : List (Int × Bytes)

/-- Models `DataLog.__init__`: empty ledger with one `ChallengeData` per
configured challenge. -/
def freshDataLog (cfg : Config) : DataLogState :=
  ⟨[], cfg.challenges.foldl (fun acc c => dictSet acc c.ticker ⟨c.dim, c.blocks_ahead, []⟩) [],
   [], []⟩

/-- Models `DataLog.append_step`: append the block, record available prices at
`block // SAMPLE_EVERY`, and store one raw payload per known hotkey (a falsy or
missing payload is stored as `b"{}"`, which parses to the empty object). -/
def append_step (cfg : Config) (st : DataLogState) (block : Int)
    (prices : List (PyStr × Rat)) (payloads : List (PyStr × JVal)) (hotkeys : List PyStr) :
    DataLogState :=
  let blocks := st.blocks ++ [block]
  let ts := blocks.length - 1
  let i := Int.fdiv block (cfg.sampleEvery : Int)
  let challenges := st.challenges.map (fun p =>
    match dictLookup prices p.1 with
    | some pr => (p.1, p.2.set_price i pr)
    | none => p)
  let inner := hotkeys.foldl (fun acc hk =>
    dictSet acc hk (match dictLookup payloads hk with
      | some ct => if jTruthy ct then RawPayload.parsed ct else RawPayload.parsed (JVal.obj [])
      | none => RawPayload.parsed (JVal.obj []))) []
  { st with blocks := blocks, challenges := challenges,
            raw_payloads := dictSet st.raw_payloads ts inner }

/-! ## Pending-payload processing -/

/-- One matured item grouped under its beacon round. -/
structure PendItem where
  ts : Nat
  hk : PyStr
  data : JVal
  version : Nat

/-- `data.get("v") == 2` (Python numeric equality; a JSON `2` or `2.0` both
satisfy it, a boolean is 1 or 0 and does not). -/
def jNumEq2 : Option JVal → Bool
  | some (.num q) => q = 2
  | _ => false

/-- `obj.get("hotkey") == hk` for a string hotkey. -/
def jStrEq : Option JVal → PyStr → Bool
  | some (.str s), t => s = t
  | _, _ => false

/-- The payload's JSON value: parse failures and empty bytes both give `{}`. -/
def rawData : RawPayload → JVal
  | .parsed j => j
  | .garbage => JVal.obj []

/-- The version tag computed at line 247: 2 when `data.get("v") == 2`, else 1
when `"ciphertext" in data`, else 0. -/
def payloadVersion (data : JVal) : Nat :=
  if jIsObj data && jNumEq2 (jGet data ("v".toList)) then 2
  else if jIsObj data && jHasKey data ("ciphertext".toList) then 1
  else 0

/-- `int(data.get("round", 0))` with `(TypeError, ValueError)` mapped to 0. -/
def roundKey (data : JVal) : Int :=
  match jGet data ("round".toList) with
  | some j => (pyToInt j).getD 0
  | none => 0

/-- One pending entry of the maturity scan: mark it mature and, when it parses
as a versioned payload, append it to its beacon-round group. -/
def collectItem (ts : Nat) (acc : List (Nat × PyStr) × List (Int × List PendItem))
    (p : PyStr × RawPayload) : List (Nat × PyStr) × List (Int × List PendItem) :=
  let data := rawData p.2
  let version := payloadVersion data
  let mature' := acc.1 ++ [(ts, p.1)]
  if version ≠ 0 then
    (mature', dictModify acc.2 (roundKey data) [] (fun l => l ++ [⟨ts, p.1, data, version⟩]))
  else (mature', acc.2)

/-- One timestep of the maturity scan: skip it while immature, collect all its
entries once mature; `none` models the `IndexError` on an out-of-range key. -/
def collectEntry (blocks : List Int) (current : Int)
    (acc : List (Nat × PyStr) × List (Int × List PendItem))
    (entry : Nat × List (PyStr × RawPayload)) :
    Option (List (Nat × PyStr) × List (Int × List PendItem)) :=
  match blocks.get? entry.1 with
  | none => none
  | some b => if current - b ≥ 300 then some (entry.2.foldl (collectItem entry.1) acc) else some acc

/-- The fold step of the maturity scan, with `none` propagated. -/
def collectStep (blocks : List Int) (current : Int)
    (acc : Option (List (Nat × PyStr) × List (Int × List PendItem)))
    (entry : Nat × List (PyStr × RawPayload)) :
    Option (List (Nat × PyStr) × List (Int × List PendItem)) :=
  match acc with
  | none => none
  | some mr => collectEntry blocks current mr entry

/-- The maturity scan (lines 239–257): walk the pending map in insertion order;
for each timestep whose block satisfies `current - blocks[ts] >= 300`, mark all
its entries mature and group versioned items by beacon round. -/
def collectMature (blocks : List Int) (current : Int)
    (payloads : List (Nat × List (PyStr × RawPayload))) :
    Option (List (Nat × PyStr) × List (Int × List PendItem)) :=
  payloads.foldl (collectStep blocks current) (some ([], []))

/-- Models `_get_drand_signature` round resolution with the permanent cache:
a non-empty cached signature is returned without a network fetch; otherwise the
beacon is consulted (the deterministic `oracle`; `none` models every transport
failure) and a non-empty result is cached.  The third component records whether
a network fetch was attempted.  The caller's 3-attempt retry loop collapses
under a deterministic oracle. -/
def getSigCached (oracle : Int → Option Bytes) (cache : List (Int × Bytes)) (rnd : Int) :
    Option Bytes × List (Int × Bytes) × Bool :=
  match dictLookup cache rnd with
  | some c =>
      if c.isEmpty then
        match oracle rnd with
        | some b => (some b, if b.isEmpty then cache else dictSet cache rnd b, true)
        | none => (none, cache, true)
      else (some c, cache, false)
  | none =>
      match oracle rnd with
      | some b => (some b, if b.isEmpty then cache else dictSet cache rnd b, true)
      | none => (none, cache, true)

/-- The `if not sig` truthiness test: an empty signature counts as absent. -/
def sigUsable : Option Bytes → Option Bytes
  | some b => if b.isEmpty then none else some b
  | none => none

/-- `emb_str.replace("'", '"')`. -/
def replaceSQuote (s : PyStr) : PyStr :=
  s.map (fun c => if c.toNat = 39 then Char.ofNat 34 else c)

/-- Per-item decryption of `_work` (lines 276–305): zero vectors without a
usable signature; V1 time-lock decryption with the `:::`-suffix hotkey check;
V2 hybrid decryption with the JSON `hotkey` field check; every failure leaves
the all-zero vector set. -/
def decryptItem (cfg : Config) (prims : Prims) (sig : Option Bytes) (it : PendItem) :
    List (PyStr × List Rat) :=
  match sigUsable sig with
  | none => zero_vecs cfg
  | some s =>
    if it.version = 1 then
      match jGetStr it.data ("ciphertext".toList) with
      | none => zero_vecs cfg
      | some ctHex =>
          match bytesFromHex ctHex with
          | none => zero_vecs cfg
          | some ct =>
              match prims.tld ct s with
              | some (.bytes b) =>
                  match prims.utf8Decode b with
                  | some pt =>
                      match rsplitOnce pt (":::".toList) with
                      | some sp =>
                          if sp.2 = it.hk then
                            match prims.jsonLoads (replaceSQuote sp.1) with
                            | some j => validate_submission cfg j
                            | none => zero_vecs cfg
                          else zero_vecs cfg
                      | none => zero_vecs cfg
                  | none => zero_vecs cfg
              | _ => zero_vecs cfg
    else if it.version = 2 then
      match decrypt_v2_payload cfg prims it.data (some s) with
      | none => zero_vecs cfg
      | some pt =>
          if pt.isEmpty then zero_vecs cfg
          else
            match (prims.utf8Decode pt).bind prims.jsonLoads with
            | some o =>
                if jIsObj o && jStrEq (jGet o ("hotkey".toList)) it.hk
                then validate_submission cfg o
                else zero_vecs cfg
            | none => zero_vecs cfg
    else zero_vecs cfg

/-- Accumulated result of the decrypt phase: the per-timestep, per-hotkey vector
sets, the updated signature cache, and the rounds for which a network fetch was
attempted. -/
structure DecState where
  dec : List (Nat × List (PyStr × List (PyStr × List Rat)))
  cache : List (Int × Bytes)
  fetched : List Int

/-- One write of the decrypt loop: `dec[ts][hk] = decryptItem(...)`. -/
def decWrite (cfg : Config) (prims : Prims) (sig : Option Bytes)
    (d : List (Nat × List (PyStr × List (PyStr × List Rat)))) (it : PendItem) :
    List (Nat × List (PyStr × List (PyStr × List Rat))) :=
  dictModify d it.ts [] (fun inner => dictSet inner it.hk (decryptItem cfg prims sig it))

/-- One `_work(rnd, items)` task: resolve the signature only for positive
rounds, then decrypt every item of the round into `dec[ts][hk]`. -/
def processRound (cfg : Config) (prims : Prims) (oracle : Int → Option Bytes)
    (acc : DecState) (entry : Int × List PendItem) : DecState :=
  match (if entry.1 > 0 then getSigCached oracle acc.cache entry.1
         else (none, acc.cache, false)) with
  | (sig, cache', attempted) =>
      ⟨entry.2.foldl (decWrite cfg prims sig) acc.dec, cache',
       acc.fetched ++ (if attempted then [entry.1] else [])⟩

/-- The decrypt phase over all round groups (batching only bounds concurrency;
with a deterministic oracle the batches compose sequentially). -/
def decryptPhase (cfg : Config) (prims : Prims) (oracle : Int → Option Bytes)
    (cache0 : List (Int × Bytes)) (rounds : List (Int × List PendItem)) : DecState :=
  rounds.foldl (processRound cfg prims oracle) ⟨[], cache0, []⟩

/-- Update the challenge keyed `k`; `none` models the `KeyError` when the ticker
is not a configured challenge. -/
def challUpdate : List (PyStr × ChallengeData) → PyStr → (ChallengeData → ChallengeData) →
    Option (List (PyStr × ChallengeData))
  | [], _, _ => none
  | p :: t, k, f =>
      if p.1 = k then some ((k, f p.2) :: t)
      else (challUpdate t k f).map (p :: ·)

/-- One inner write of the merge loop: record `vec` under challenge `tv.1` when
it contains a non-zero element, leave the series untouched otherwise. -/
def writeVec (i : Int) (hk : PyStr) (acc : Option (List (PyStr × ChallengeData)))
    (tv : PyStr × List Rat) : Option (List (PyStr × ChallengeData)) :=
  match acc with
  | none => none
  | some chs =>
      if tv.2.any (fun q => ¬ (q = 0)) then
        challUpdate chs tv.1 (fun ch => ch.set_emb i hk tv.2)
      else some chs

/-- All writes of one hotkey's vector set at sample index `i`. -/
def writeHk (i : Int) (acc : Option (List (PyStr × ChallengeData)))
    (hkv : PyStr × List (PyStr × List Rat)) : Option (List (PyStr × ChallengeData)) :=
  hkv.2.foldl (writeVec i hkv.1) acc

/-- The merge phase (lines 315–322): for every decrypted timestep whose block is
aligned to the sampling interval, write each vector containing a non-zero
element into the challenge's sample embeddings. -/
def mergeDec (cfg : Config) (blocks : List Int) (challenges : List (PyStr × ChallengeData))
    (dec : List (Nat × List (PyStr × List (PyStr × List Rat)))) :
    Option (List (PyStr × ChallengeData)) :=
  dec.foldl (fun acc entry =>
      match acc with
      | none => none
      | some chs =>
          match blocks.get? entry.1 with
          | none => none
          | some b =>
              if Int.fmod b (cfg.sampleEvery : Int) ≠ 0 then some chs
              else entry.2.foldl (writeHk (Int.fdiv b (cfg.sampleEvery : Int))) (some chs))
    (some challenges)

/-- One step of the removal loop: `self.raw_payloads.get(ts, {}).pop(hk, None)`
followed by deletion of the timestep when its inner map is empty. -/
def removeOne (r : List (Nat × List (PyStr × RawPayload))) (p : Nat × PyStr) :
    List (Nat × List (PyStr × RawPayload)) :=
  let r' := match dictLookup r p.1 with
    | none => r
    | some inner => dictSet r p.1 (dictRemove inner p.2)
  match dictLookup r' p.1 with
  | some [] => dictRemove r' p.1
  | _ => r'

/-- The removal loop (lines 323–326): pop every mature `(ts, hk)` pair and delete
any timestep whose inner map becomes empty. -/
def removeMature (raw : List (Nat × List (PyStr × RawPayload))) (mature : List (Nat × PyStr)) :
    List (Nat × List (PyStr × RawPayload)) :=
  mature.foldl removeOne raw

/-- Result of one `process_pending_payloads` pass: the new state, the decrypted
vector sets, and the rounds for which a signature fetch was attempted. -/
structure ProcessOut where
  state : DataLogState
  dec : List (Nat × List (PyStr × List (PyStr × List Rat)))
  fetched : List Int

/-- Models `process_pending_payloads` (with its observable decrypt results):
snapshot, maturity scan, per-round signature resolution and decryption, merge
of non-zero vectors at aligned blocks, and removal of mature entries.  `none`
models an uncaught `IndexError`/`KeyError` escaping the method. -/
def process_pending_core (cfg : Config) (prims : Prims) (oracle : Int → Option Bytes)
    (st : DataLogState) : Option ProcessOut :=
  if st.raw_payloads.isEmpty then some ⟨st, [], []⟩
  else
    match st.blocks.getLast? with
    | none => none
    | some current =>
      match collectMature st.blocks current st.raw_payloads with
      | none => none
      | some mr =>
        if mr.1.isEmpty then some ⟨st, [], []⟩
        else
          match mergeDec cfg st.blocks st.challenges
              (decryptPhase cfg prims oracle st.drand_cache mr.2).dec with
          | none => none
          | some challenges' =>
            some (ProcessOut.mk
              { st with
                  challenges := challenges'
                  raw_payloads := removeMature st.raw_payloads mr.1
                  drand_cache := (decryptPhase cfg prims oracle st.drand_cache mr.2).cache }
              (decryptPhase cfg prims oracle st.drand_cache mr.2).dec
              (decryptPhase cfg prims oracle st.drand_cache mr.2).fetched)

/-- Models `process_pending_payloads` as a state transformer. -/
def process_pending_payloads (cfg : Config) (prims : Prims) (oracle : Int → Option Bytes)
    (st : DataLogState) : Option DataLogState :=
  (process_pending_core cfg prims oracle st).map (·.state)

/-- Models `prune_hotkeys`: drop embeddings and hotkey-order entries of inactive
hotkeys everywhere; prices and pending payloads untouched. -/
def prune_hotkeys (st : DataLogState) (active : List PyStr) : DataLogState :=
  { st with challenges := st.challenges.map (fun p => (p.1,
      { p.2 with sidx := p.2.sidx.map (fun q => (q.1,
          { q.2 with emb := q.2.emb.filter (fun e => e.1 ∈ active),
                     hotkeys := q.2.hotkeys.filter (· ∈ active) })) })) }

/-! ## Dataset constructor -/

/-- Lexicographic order on Python strings by code point. -/
def pyStrLeB : PyStr → PyStr → Bool
  | [], _ => true
  | _ :: _, [] => false
  | a :: s, b :: t =>
      if a.toNat < b.toNat then true
      else if a.toNat = b.toNat then pyStrLeB s t
      else false

/-- Insert into a sorted list (stable insertion sort step). -/
def insertBy {α : Type} (le : α → α → Bool) (x : α) : List α → List α
  | [] => [x]
  | y :: ys => if le x y then x :: y :: ys else y :: insertBy le x ys

/-- Insertion sort (models Python `sorted`). -/
def sortBy {α : Type} (le : α → α → Bool) (l : List α) : List α :=
  l.foldr (insertBy le) []

/-- `sorted({hk for d in ch.sidx.values() for hk in d["emb"].keys()})`. -/
def allEmbHotkeys (ch : ChallengeData) : List PyStr :=
  sortBy pyStrLeB ((ch.sidx.flatMap (fun p => p.2.emb.map (·.1))).dedup)

/-- One retained training sample, instrumented with the quantities the loop
inspects: the sample index, current and future price, the unchanged-price
streak at that sample, the flattened feature row and the relative-change label. -/
structure TDEntry where
  sidx : Int
  priceNow : Rat
  priceFut : Rat
  streak : Nat
  row : List Rat
  label : Rat

/-- The flattened `hotkeys × dim` feature matrix of one sample: stored vectors
in `all_hks` order, zero rows for hotkeys without an embedding. -/
def rowOf (ch : ChallengeData) (allHks : List PyStr) (data : Sample) : List Rat :=
  (allHks.map (fun hk =>
    match dictLookup data.emb hk with
    | some v => v
    | none => zeroVec ch.dim)).flatten

/-- The `prev_price` / `unchanged_streak` update of lines 393–398: reset the
streak whenever a price is present and differs from the previous one (or is the
first), increment it when unchanged, leave both untouched for a missing price. -/
def streakStep (price prevPrice : Option Rat) (streak : Nat) : Option Rat × Nat :=
  match price, prevPrice with
  | none, _ => (prevPrice, streak)
  | some p, none => (some p, 0)
  | some p, some pp => if p = pp then (some pp, streak + 1) else (some p, 0)

/-- The retain/skip decision of lines 400–424 for one sample (after the streak
update): skip when the streak bound is exceeded, the future sample or either
price is missing, a price is non-positive, the sample has no embeddings, or all
stored vectors are zero; otherwise emit the instrumented entry. -/
def tdKeep (cfg : Config) (ch : ChallengeData) (allHks : List PyStr) (i : Int)
    (data : Sample) (future : Option Sample) (streak : Nat) : Option TDEntry :=
  if cfg.maxUnchanged > 0 ∧ streak > cfg.maxUnchanged then none
  else
    match future, data.price with
    | some fut, some pn =>
        match fut.price with
        | some pf =>
            if pn ≤ 0 ∨ pf ≤ 0 then none
            else if data.emb.isEmpty then none
            else if data.emb.any (fun e => e.2.any (fun q => ¬ (q = 0))) then
              some ⟨i, pn, pf, streak, rowOf ch allHks data,
                    if pn = 0 then 0 else (pf - pn) / pn⟩
            else none
        | none => none
    | _, _ => none

/-- The per-challenge training loop of `get_training_data_sync` (lines 386–424),
walking samples in ascending index order while threading `prev_price` and
`unchanged_streak`; emits the retained samples in order. -/
def tdLoop (cfg : Config) (ch : ChallengeData) (allHks : List PyStr) (maxBlock : Option Int) :
    List (Int × Sample) → Option Rat → Nat → List TDEntry
  | [], _, _ => []
  | (i, data) :: rest, prevPrice, streak =>
      let block := i * (cfg.sampleEvery : Int)
      let stop : Bool :=
        match maxBlock with
        | some m => if m = 0 then false else decide (block > m)
        | none => false
      if stop then []
      else
        let ahead : Nat := ch.blocks_ahead / cfg.sampleEvery
        let future := dictLookup ch.sidx (i + (ahead : Int))
        let su := streakStep data.price prevPrice streak
        (tdKeep cfg ch allHks i data future su.2).toList ++
          tdLoop cfg ch allHks maxBlock rest su.1 su.2

/-- The retained samples of one challenge. -/
def tdEntries (cfg : Config) (ch : ChallengeData) (maxBlock : Option Int) : List TDEntry :=
  tdLoop cfg ch (allEmbHotkeys ch) maxBlock
    (sortBy (fun a b => decide (a.1 ≤ b.1)) ch.sidx) none 0

/-- Models `get_training_data_sync`: per challenge with at least one observed
embedding hotkey and at least one retained sample, the feature rows with the
hotkey index, and the label vector. -/
def get_training_data_sync (cfg : Config) (st : DataLogState) (maxBlock : Option Int) :
    List (PyStr × ((List (List Rat) × List (PyStr × Nat)) × List Rat)) :=
  st.challenges.foldl (fun res p =>
    let allHks := allEmbHotkeys p.2
    if allHks.isEmpty then res
    else
      let hk2idx := (allHks.zip (List.range allHks.length))
      let entries := tdEntries cfg p.2 maxBlock
      if entries.isEmpty then res
      else dictSet res p.1 ((entries.map (·.row), hk2idx), entries.map (·.label))) []

/-! ## Persistence -/

/-- A saved snapshot artifact: the serialized payload, tagged by whether it was
written through the gzip codec. -/
inductive SavedFile (α : Type)
  | plain (data : α)
  | gzipped (data : α)

/-- `path.endswith(".gz")`. -/
def endsGz (path : String) : Bool := path.endsWith (".gz")

/-- Models `DataLog.save(path)`: serialize the ledger with the given
serializer (`pickle.dump`) and compress when the path carries the suffix. -/
def dataLog_save {α : Type} (dump : DataLogState → α) (path : String) (st : DataLogState) :
    SavedFile α :=
  if endsGz path then .gzipped (dump st) else .plain (dump st)

/-- Models `DataLog.load(path)`: a missing file, a codec mismatch (gzip applied
to a plain file or vice versa) or a deserialization failure all fall back to a
fresh ledger; a loaded ledger keeps every persisted field (`_lock` is re-created
and `_drand_cache` defaulted only when absent, and both are already part of the
model state). -/
def dataLog_load {α : Type} (cfg : Config) (loadp : α → Option DataLogState)
    (path : String) (file : Option (SavedFile α)) : DataLogState :=
  match file with
  | none => freshDataLog cfg
  | some (.plain d) =>
      if endsGz path then freshDataLog cfg
      else
        match loadp d with
        | some st => st
        | none => freshDataLog cfg
  | some (.gzipped d) =>
      if endsGz path then
        match loadp d with
        | some st => st
        | none => freshDataLog cfg
      else freshDataLog cfg

/-! ## Operation sequences -/

/-- One externally triggered ledger operation. -/
inductive LedgerOp
  | append (block : Int) (prices : List (PyStr × Rat)) (payloads : List (PyStr × JVal))
      (hotkeys : List PyStr)
  | processPending (oracle : Int → Option Bytes)
  | prune (active : List PyStr)

/-- Apply one operation.  A `process_pending_payloads` run that raises leaves
the model state unchanged; the source's raising paths never touch the block
list, so the block sequence of this model agrees with the source on every path. -/
def applyOp (cfg : Config) (prims : Prims) (st : DataLogState) : LedgerOp → DataLogState
  | .append b pr pl hks => append_step cfg st b pr pl hks
  | .processPending oracle =>
      match process_pending_payloads cfg prims oracle st with
      | some st' => st'
      | none => st
  | .prune active => prune_hotkeys st active

/-- Apply a sequence of operations in order. -/
def applyOps (cfg : Config) (prims : Prims) (st : DataLogState) (ops : List LedgerOp) :
    DataLogState :=
  ops.foldl (applyOp cfg prims) st

/-- The blocks appended by a sequence of operations, in order. -/
def opBlocks : List LedgerOp → List Int
  | [] => []
  | .append b _ _ _ :: t => b :: opBlocks t
  | _ :: t => opBlocks t

/-- Strict increase of an integer sequence, as an executable predicate. -/
def strictIncrB : List Int → Bool
  | [] => true
  | [_] => true
  | a :: b :: t => decide (a < b) && strictIncrB (b :: t)

/-! ## Observation helpers used in theorem statements -/

/-- The embedding vector stored for challenge `t`, sample index `i`, hotkey `hk`. -/
def embAt (chs : List (PyStr × ChallengeData)) (t : PyStr) (i : Int) (hk : PyStr) :
    Option (List Rat) :=
  match dictLookup chs t with
  | none => none
  | some ch =>
      match dictLookup ch.sidx i with
      | none => none
      | some s => dictLookup s.emb hk

/-- The decrypted vector set recorded for `(ts, hk)` in a decrypt-result map. -/
def decLookup (dec : List (Nat × List (PyStr × List (PyStr × List Rat)))) (ts : Nat)
    (hk : PyStr) : Option (List (PyStr × List Rat)) :=
  match dictLookup dec ts with
  | none => none
  | some inner => dictLookup inner hk

/-- Some round group of the maturity scan holds an item for `(ts, hk)`. -/
def hasItem (ts : Nat) (hk : PyStr) (groups : List (Int × List PendItem)) : Prop :=
  ∃ g ∈ groups, ∃ it ∈ g.2, it.ts = ts ∧ it.hk = hk

/-! ## Concrete fixtures used by witnesses and counterexamples -/

/-- A concrete configuration: one challenge of dimension 2, owner key `"aa"`. -/
def cfgW : Config where
  challenges := [⟨("BTC".toList), 2, 300⟩]
  nameToTicker := []
  sampleEvery := 100
  maxUnchanged := 5
  ownerPkHex := ("aa".toList)

/-- The 64-byte secret returned by the fixture time-lock: 32 zero bytes of
ephemeral scalar followed by a 32-byte content key. -/
def keyW : Bytes := List.replicate 32 7

/-- Concrete primitives on which the fixture payload decrypts successfully. -/
def primsW : Prims where
  tld := fun _ _ => some (.bytes (List.replicate 32 0 ++ keyW))
  derivePke := fun _ => [0xbb]
  exchange := fun _ _ => [1]
  hkdf := fun _ _ n => List.replicate n 9
  chachaDecrypt := fun k _ _ _ => if k = List.replicate 32 9 then some keyW else some [42]
  utf8Decode := fun _ => none
  jsonLoads := fun _ => none

/-- A concrete V2 payload whose `owner_pk` field is `"AA"` (differing from the
configured `"aa"` only by case) and whose binding commitment is the genuine
SHA-256 value for `hk="h"`, `round=5`, owner key `0xaa`, ephemeral key `0xbb`. -/
def payloadW : JVal :=
  JVal.obj
    [(("owner_pk".toList), JVal.str ("AA".toList)),
     (("W_owner".toList), JVal.obj
       [(("pke".toList), JVal.str ("bb".toList)),
        (("nonce".toList), JVal.str ("00".toList)),
        (("ct".toList), JVal.str ("00".toList))]),
     (("hk".toList), JVal.str ("h".toList)),
     (("round".toList), JVal.num 5),
     (("binding".toList), JVal.str
       ("5c67bd484be45996769cc14d393b2811ffbb5d00f88abc84908668de9115ea4a".toList)),
     (("W_time".toList), JVal.obj [(("ct".toList), JVal.str ("00".toList))]),
     (("C".toList), JVal.obj
       [(("nonce".toList), JVal.str ("00".toList)),
        (("ct".toList), JVal.str ("00".toList))])]

/-- Identity serializer standing in for `pickle.dump` in witnesses. -/
def dumpW : DataLogState → DataLogState := id

/-- Identity deserializer standing in for `pickle.load` in witnesses. -/
def loadW : DataLogState → Option DataLogState := some

/-- A concrete challenge-series fixture for the dataset-constructor witness:
prices present and positive at indices 0 and 3, one non-zero embedding at 0. -/
def chTD : ChallengeData :=
  ⟨2, 300, [(0, ⟨[("h1".toList)], some 3, [(("h1".toList), [1, 0])]⟩),
            (3, ⟨[], some 4, []⟩)]⟩

/-- Fixture challenge map of `cfgW` (for the merge witness). -/
def chsW : List (PyStr × ChallengeData) := (freshDataLog cfgW).challenges

/-- Fixture decrypted vector set of one hotkey (for the merge witness). -/
def byHkW : List (PyStr × List (PyStr × List Rat)) :=
  [(("h1".toList), [(("BTC".toList), [1, 0])])]

/-- The merge result of the `C6` witness run. -/
def mergedW : List (PyStr × ChallengeData) :=
  (mergeDec cfgW [0] chsW [(0, byHkW)]).getD []

/-- The binding digest of the fixture payload. -/
def bindW : Bytes :=
  [92, 103, 189, 72, 75, 228, 89, 150, 118, 156, 193, 77, 57, 59, 40, 17,
   255, 187, 93, 0, 248, 138, 188, 132, 144, 134, 104, 222, 145, 21, 234, 74]

/-- The fixture configuration with no configured owner key. -/
def cfgEmptyW : Config := { cfgW with ownerPkHex := [] }

/-- A ledger with one mature unparseable pending payload (blocks `[0, 400]`,
the payload at timestep 0 is 400 blocks old). -/
def stC3 : DataLogState :=
  ⟨[0, 400], [], [(0, [(("h1".toList), RawPayload.garbage)])], []⟩

/-- `stC3` after one processing pass: the mature entry is gone and its emptied
timestep is pruned. -/
def stC3removed : DataLogState := ⟨[0, 400], [], [], []⟩

/-- A parsed V2 payload with no `round` field (`int(data.get("round", 0))` is 0). -/
def payloadC10 : JVal := JVal.obj [(("v".toList), JVal.num 2)]

/-- A ledger with one mature V2 payload whose round key is 0. -/
def stC10 : DataLogState :=
  ⟨[0, 400], [], [(0, [(("h1".toList), RawPayload.parsed payloadC10)])], []⟩

/-- The processing result on `stC10`: the hotkey is zero-filled, nothing is
fetched, and the pending entry is gone. -/
def outC10 : ProcessOut :=
  ⟨⟨[0, 400], [], [], []⟩, [(0, [(("h1".toList), [(("BTC".toList), [0, 0])])])], []⟩

/-! ## Dictionary lemmas -/

theorem dictLookup_dictSet {α β : Type} [DecidableEq α] (l : List (α × β)) (k k' : α) (v : β) :
    dictLookup (dictSet l k v) k' = if k' = k then some v else dictLookup l k' := by
  induction l with
  | nil =>
      by_cases h : k' = k
      · simp [dictSet, dictLookup, h]
      · simp [dictSet, dictLookup, h, Ne.symm h]
  | cons p t ih =>
      by_cases h1 : p.1 = k
      · subst h1
        by_cases h2 : k' = p.1
        · simp [dictSet, dictLookup, h2]
        · simp [dictSet, dictLookup, h2, Ne.symm h2]
      · by_cases h2 : k' = k
        · subst h2
          simp [dictSet, dictLookup, h1, ih, Ne.symm h1]
        · by_cases h3 : p.1 = k'
          · simp [dictSet, dictLookup, h1, h2, h3]
          · simp [dictSet, dictLookup, h1, h3, ih, h2]

theorem keys_dictSet {α β : Type} [DecidableEq α] (l : List (α × β)) (k : α) (v : β) :
    (dictSet l k v).map Prod.fst =
      if k ∈ l.map Prod.fst then l.map Prod.fst else l.map Prod.fst ++ [k] := by
  induction l with
  | nil => simp [dictSet]
  | cons p t ih =>
      by_cases h1 : p.1 = k
      · simp [dictSet, h1]
      · have hne : ¬ k = p.1 := fun h => h1 h.symm
        by_cases h2 : k ∈ t.map Prod.fst <;> simp [dictSet, h1, h2, hne, ih]

theorem dictLookup_eq_none {α β : Type} [DecidableEq α] (l : List (α × β)) (k : α) :
    dictLookup l k = none ↔ k ∉ l.map Prod.fst := by
  induction l with
  | nil => simp [dictLookup]
  | cons p t ih =>
      by_cases h : p.1 = k
      · simp [dictLookup, h]
      · have hne : ¬ k = p.1 := fun hx => h hx.symm
        simp [dictLookup, h, hne, ih]

theorem dictLookup_mem {α β : Type} [DecidableEq α] {l : List (α × β)} {k : α} {v : β}
    (h : dictLookup l k = some v) : (k, v) ∈ l := by
  induction l with
  | nil => simp [dictLookup] at h
  | cons p t ih =>
      by_cases h1 : p.1 = k
      · simp [dictLookup, h1] at h
        have hp : p = (k, v) := by
          cases p with
          | mk a b => simp_all
        rw [hp]
        exact List.mem_cons_self _ _
      · simp [dictLookup, h1] at h
        exact List.mem_cons_of_mem _ (ih h)

theorem dictLookup_of_mem_nodup {α β : Type} [DecidableEq α] {l : List (α × β)} {k : α} {v : β}
    (hnd : (l.map Prod.fst).Nodup) (h : (k, v) ∈ l) : dictLookup l k = some v := by
  induction l with
  | nil => simp at h
  | cons p t ih =>
      rw [List.map_cons, List.nodup_cons] at hnd
      obtain ⟨hp, ht⟩ := hnd
      rcases List.mem_cons.mp h with h | h
      · subst h; simp [dictLookup]
      · have hk : k ∈ t.map Prod.fst := List.mem_map.mpr ⟨(k, v), h, rfl⟩
        have hne : p.1 ≠ k := fun he => hp (he ▸ hk)
        simp only [dictLookup, if_neg hne]
        exact ih ht h

theorem dictLookup_isSome_of_mem_keys {α β : Type} [DecidableEq α] {l : List (α × β)} {k : α}
    (h : k ∈ l.map Prod.fst) : ∃ v, dictLookup l k = some v := by
  cases hv : dictLookup l k with
  | none => exact absurd ((dictLookup_eq_none l k).mp hv) (by simpa using h)
  | some v => exact ⟨v, rfl⟩

theorem dictLookup_dictModify {α β : Type} [DecidableEq α] (l : List (α × β)) (k k' : α)
    (d : β) (f : β → β) :
    dictLookup (dictModify l k d f) k' =
      if k' = k then some (f ((dictLookup l k).getD d)) else dictLookup l k' := by
  induction l with
  | nil =>
      by_cases h : k' = k
      · simp [dictModify, dictLookup, h]
      · simp [dictModify, dictLookup, h, Ne.symm h]
  | cons p t ih =>
      by_cases h1 : p.1 = k
      · subst h1
        by_cases h2 : k' = p.1
        · simp [dictModify, dictLookup, h2]
        · simp [dictModify, dictLookup, h2, Ne.symm h2]
      · by_cases h2 : k' = k
        · subst h2
          simp [dictModify, dictLookup, h1, ih, Ne.symm h1]
        · by_cases h3 : p.1 = k'
          · simp [dictModify, dictLookup, h1, h2, h3]
          · simp [dictModify, dictLookup, h1, h3, ih, h2]

theorem keys_dictModify {α β : Type} [DecidableEq α] (l : List (α × β)) (k : α) (d : β)
    (f : β → β) :
    (dictModify l k d f).map Prod.fst =
      if k ∈ l.map Prod.fst then l.map Prod.fst else l.map Prod.fst ++ [k] := by
  induction l with
  | nil => simp [dictModify]
  | cons p t ih =>
      by_cases h1 : p.1 = k
      · simp [dictModify, h1]
      · have hne : ¬ k = p.1 := fun h => h1 h.symm
        by_cases h2 : k ∈ t.map Prod.fst <;> simp [dictModify, h1, h2, hne, ih]

theorem mem_keys_dictRemove {α β : Type} [DecidableEq α] {l : List (α × β)} {k k' : α}
    (h : k' ∈ (dictRemove l k).map Prod.fst) : k' ∈ l.map Prod.fst := by
  induction l with
  | nil => simpa [dictRemove] using h
  | cons p t ih =>
      simp only [dictRemove] at h
      rw [List.map_cons]
      by_cases h1 : p.1 = k
      · rw [if_pos h1] at h
        exact List.mem_cons_of_mem _ h
      · rw [if_neg h1, List.map_cons] at h
        rcases List.mem_cons.mp h with h | h
        · exact List.mem_cons.mpr (Or.inl h)
        · exact List.mem_cons.mpr (Or.inr (ih h))

theorem nodup_keys_dictRemove {α β : Type} [DecidableEq α] {l : List (α × β)} (k : α)
    (hnd : (l.map Prod.fst).Nodup) : ((dictRemove l k).map Prod.fst).Nodup := by
  induction l with
  | nil => simpa [dictRemove] using hnd
  | cons p t ih =>
      rw [List.map_cons, List.nodup_cons] at hnd
      obtain ⟨hp, ht⟩ := hnd
      simp only [dictRemove]
      by_cases h1 : p.1 = k
      · rw [if_pos h1]; exact ht
      · rw [if_neg h1, List.map_cons, List.nodup_cons]
        exact ⟨fun hx => hp (mem_keys_dictRemove hx), ih ht⟩

theorem dictLookup_dictRemove_ne {α β : Type} [DecidableEq α] (l : List (α × β)) {k k' : α}
    (h : k' ≠ k) : dictLookup (dictRemove l k) k' = dictLookup l k' := by
  induction l with
  | nil => simp [dictRemove]
  | cons p t ih =>
      by_cases h1 : p.1 = k
      · have hp : ¬ p.1 = k' := by
          rw [h1]; exact fun hx => h hx.symm
        simp [dictRemove, h1, dictLookup, hp, Ne.symm h]
      · by_cases h2 : p.1 = k' <;> simp [dictRemove, h1, dictLookup, h2, ih, h]

theorem dictLookup_dictRemove_self {α β : Type} [DecidableEq α] {l : List (α × β)} {k : α}
    (hnd : (l.map Prod.fst).Nodup) : dictLookup (dictRemove l k) k = none := by
  induction l with
  | nil => simp [dictRemove, dictLookup]
  | cons p t ih =>
      rw [List.map_cons, List.nodup_cons] at hnd
      obtain ⟨hp, ht⟩ := hnd
      by_cases h1 : p.1 = k
      · simp only [dictRemove, if_pos h1]
        rw [dictLookup_eq_none, ← h1]
        exact hp
      · simp only [dictRemove, if_neg h1, dictLookup]
        exact ih ht

/-! ## Persistence round-trip (C8) -/

/-- C8: for every ledger state, loading right after saving (with or without the
compression suffix) reproduces the block sequence and every challenge series
(prices, embeddings, and hotkey order), given a serializer/deserializer pair
satisfying the round-trip contract of `pickle`. -/
theorem C8_save_load_roundtrip {α : Type} (dump : DataLogState → α)
    (loadp : α → Option DataLogState) (hinv : ∀ s, loadp (dump s) = some s)
    (cfg : Config) (path : String) (st : DataLogState) :
    (dataLog_load cfg loadp path (some (dataLog_save dump path st))).blocks = st.blocks ∧
    (dataLog_load cfg loadp path (some (dataLog_save dump path st))).challenges =
      st.challenges := by
  unfold dataLog_save dataLog_load
  cases h : endsGz path <;> simp [h, hinv]

/-- Witness for C8 at the identity serializer pair, a compressed path and the
fresh ledger. -/
theorem C8_save_load_roundtrip_witness :
    (dataLog_load cfgW loadW ("datalog.pkl.gz")
        (some (dataLog_save dumpW ("datalog.pkl.gz") (freshDataLog cfgW)))).blocks =
      (freshDataLog cfgW).blocks ∧
    (dataLog_load cfgW loadW ("datalog.pkl.gz")
        (some (dataLog_save dumpW ("datalog.pkl.gz") (freshDataLog cfgW)))).challenges =
      (freshDataLog cfgW).challenges :=
  C8_save_load_roundtrip dumpW loadW (fun _ => rfl) cfgW ("datalog.pkl.gz") (freshDataLog cfgW)

/-! ## Block-sequence lemmas and C9 -/

theorem process_core_blocks (cfg : Config) (prims : Prims) (oracle : Int → Option Bytes)
    (st : DataLogState) (out : ProcessOut)
    (h : process_pending_core cfg prims oracle st = some out) :
    out.state.blocks = st.blocks := by
  unfold process_pending_core at h
  split at h
  · simp only [Option.some.injEq] at h
    rw [← h]
  · split at h
    · exact absurd h (by simp)
    · split at h
      · exact absurd h (by simp)
      · split at h
        · simp only [Option.some.injEq] at h
          rw [← h]
        · split at h
          · exact absurd h (by simp)
          · simp only [Option.some.injEq] at h
            rw [← h]

theorem process_blocks (cfg : Config) (prims : Prims) (oracle : Int → Option Bytes)
    (st st' : DataLogState)
    (h : process_pending_payloads cfg prims oracle st = some st') : st'.blocks = st.blocks := by
  unfold process_pending_payloads at h
  rw [Option.map_eq_some'] at h
  obtain ⟨o, ho, hb⟩ := h
  rw [← hb]
  exact process_core_blocks cfg prims oracle st o ho

theorem applyOps_blocks (cfg : Config) (prims : Prims) :
    ∀ (ops : List LedgerOp) (st : DataLogState),
      (applyOps cfg prims st ops).blocks = st.blocks ++ opBlocks ops := by
  intro ops
  induction ops with
  | nil => intro st; simp [applyOps, opBlocks]
  | cons op t ih =>
      intro st
      have hstep : applyOps cfg prims st (op :: t) = applyOps cfg prims (applyOp cfg prims st op) t := rfl
      rw [hstep, ih]
      cases op with
      | append b pr pl hks => simp [applyOp, append_step, opBlocks]
      | processPending oracle =>
          simp only [applyOp, opBlocks]
          cases hp : process_pending_payloads cfg prims oracle st with
          | none => rfl
          | some st' => rw [process_blocks cfg prims oracle st st' hp]
      | prune active => simp [applyOp, prune_hotkeys, opBlocks]

/-- C9 (amended): the block sequence is append-only under every sequence of
ledger operations — the final list is the initial list followed by exactly the
blocks passed to `append_step`, in order (so previously appended entries are
never modified) — and it is strictly increasing provided the appended blocks
extend it increasingly.  `append_step` itself performs no ordering check, so
strict increase with arbitrary block arguments fails (see the counterexample). -/
theorem C9_blocks_append_only (cfg : Config) (prims : Prims) (st : DataLogState)
    (ops : List LedgerOp) :
    (applyOps cfg prims st ops).blocks = st.blocks ++ opBlocks ops ∧
    (strictIncrB (st.blocks ++ opBlocks ops) = true →
      strictIncrB (applyOps cfg prims st ops).blocks = true) := by
  refine ⟨applyOps_blocks cfg prims ops st, ?_⟩
  intro hs
  rw [applyOps_blocks cfg prims ops st]
  exact hs

/-- Witness for C9 on a concrete increasing two-append run. -/
theorem C9_blocks_append_only_witness :
    strictIncrB ((freshDataLog cfgW).blocks ++
        opBlocks [LedgerOp.append 1 [] [] [], LedgerOp.append 2 [] [] []]) = true ∧
    strictIncrB (applyOps cfgW primsW (freshDataLog cfgW)
        [LedgerOp.append 1 [] [] [], LedgerOp.append 2 [] [] []]).blocks = true :=
  ⟨by decide,
   (C9_blocks_append_only cfgW primsW (freshDataLog cfgW)
      [LedgerOp.append 1 [] [] [], LedgerOp.append 2 [] [] []]).2 (by decide)⟩

/-- Counterexample to C9 as stated: appending blocks 5 then 3 (allowed by
`append_step`, which performs no check) leaves a block sequence that is not
strictly increasing. -/
theorem C9_counterexample :
    (applyOps cfgW primsW (freshDataLog cfgW)
        [LedgerOp.append 5 [] [] [], LedgerOp.append 3 [] [] []]).blocks = [5, 3] ∧
    strictIncrB [5, 3] = false :=
  ⟨rfl, rfl⟩

/-! ## V2 decryption stage lemmas -/

theorem decrypt_v2_payload_some (cfg : Config) (prims : Prims) (payload : JVal) (s : Bytes) :
    decrypt_v2_payload cfg prims payload (some s) =
      if s = [] then none
      else if configuredOwnerHex cfg = [] then none
      else
        match jGet payload ("owner_pk".toList) with
        | some (.str p) =>
            if lowerAscii p = lowerAscii (configuredOwnerHex cfg) then
              decryptV2AfterOwner cfg prims payload s
            else none
        | _ => decryptV2AfterOwner cfg prims payload s := rfl

theorem decrypt_none_of_afterOwner_none (cfg : Config) (prims : Prims) (payload : JVal)
    (sig : Option Bytes) (h : ∀ s, decryptV2AfterOwner cfg prims payload s = none) :
    decrypt_v2_payload cfg prims payload sig = none := by
  cases sig with
  | none => rfl
  | some s =>
      rw [decrypt_v2_payload_some]
      split
      · rfl
      · split
        · rfl
        · split
          · split
            · exact h s
            · rfl
          · exact h s

theorem afterOwner_none_of_conf (cfg : Config) (prims : Prims) (payload : JVal) (s : Bytes)
    (h : bytesFromHex (configuredOwnerHex cfg) = none) :
    decryptV2AfterOwner cfg prims payload s = none := by
  unfold decryptV2AfterOwner
  simp only [h]

theorem afterOwner_none_of_pke (cfg : Config) (prims : Prims) (payload : JVal) (s : Bytes)
    (h : jGetStr2 payload ("W_owner".toList) ("pke".toList) = none) :
    decryptV2AfterOwner cfg prims payload s = none := by
  unfold decryptV2AfterOwner
  cases hc : bytesFromHex (configuredOwnerHex cfg) with
  | none => simp only [hc]
  | some owner =>
      simp only [hc, h]
      rfl

theorem afterOwner_none_of_hk (cfg : Config) (prims : Prims) (payload : JVal) (s : Bytes)
    (h : jGetStr payload ("hk".toList) = none) :
    decryptV2AfterOwner cfg prims payload s = none := by
  unfold decryptV2AfterOwner
  cases hc : bytesFromHex (configuredOwnerHex cfg) with
  | none => simp only [hc]
  | some owner =>
      simp only [hc]
      cases hp : (jGetStr2 payload ("W_owner".toList) ("pke".toList)).bind bytesFromHex with
      | none => simp only [hp]
      | some pke => simp only [hp, h]

theorem afterOwner_none_of_binding (cfg : Config) (prims : Prims) (payload : JVal) (s : Bytes)
    (h : (jGetStr payload ("binding".toList)).bind bytesFromHex = none) :
    decryptV2AfterOwner cfg prims payload s = none := by
  unfold decryptV2AfterOwner
  cases hc : bytesFromHex (configuredOwnerHex cfg) with
  | none => simp only [hc]
  | some owner =>
      simp only [hc]
      cases hp : (jGetStr2 payload ("W_owner".toList) ("pke".toList)).bind bytesFromHex with
      | none => simp only [hp]
      | some pke =>
          simp only [hp]
          cases hhk : jGetStr payload ("hk".toList) with
          | none => simp only [hhk]
          | some hk =>
              simp only [hhk]
              cases hr : (jGet payload ("round".toList)).bind pyToInt with
              | none => simp only [hr]
              | some rnd => simp only [hr, h]

theorem afterOwner_gate (cfg : Config) (prims : Prims) (payload : JVal) (s : Bytes)
    (owner_pk pke : Bytes) (hk : PyStr) (rnd : Int) (declared : Bytes)
    (howner : bytesFromHex (configuredOwnerHex cfg) = some owner_pk)
    (hpke : (jGetStr2 payload ("W_owner".toList) ("pke".toList)).bind bytesFromHex = some pke)
    (hhk : jGetStr payload ("hk".toList) = some hk)
    (hrnd : (jGet payload ("round".toList)).bind pyToInt = some rnd)
    (hdecl : (jGetStr payload ("binding".toList)).bind bytesFromHex = some declared) :
    decryptV2AfterOwner cfg prims payload s =
      if declared = binding hk rnd owner_pk pke
      then decryptV2AfterBinding prims payload s (binding hk rnd owner_pk pke) owner_pk pke
      else none := by
  unfold decryptV2AfterOwner
  simp only [howner, hpke, hhk, hrnd, hdecl]

theorem afterOwner_none_of_afterBinding (cfg : Config) (prims : Prims) (payload : JVal)
    (s : Bytes)
    (h : ∀ bnd o p, decryptV2AfterBinding prims payload s bnd o p = none) :
    decryptV2AfterOwner cfg prims payload s = none := by
  unfold decryptV2AfterOwner
  cases hc : bytesFromHex (configuredOwnerHex cfg) with
  | none => simp only [hc]
  | some owner =>
      simp only [hc]
      cases hp : (jGetStr2 payload ("W_owner".toList) ("pke".toList)).bind bytesFromHex with
      | none => simp only [hp]
      | some pke =>
          simp only [hp]
          cases hhk : jGetStr payload ("hk".toList) with
          | none => simp only [hhk]
          | some hk =>
              simp only [hhk]
              cases hr : (jGet payload ("round".toList)).bind pyToInt with
              | none => simp only [hr]
              | some rnd =>
                  simp only [hr]
                  cases hd : (jGetStr payload ("binding".toList)).bind bytesFromHex with
                  | none => simp only [hd]
                  | some declared =>
                      simp only [hd]
                      split
                      · exact h _ _ _
                      · rfl

theorem afterBinding_none_of_tld (prims : Prims) (payload : JVal) (s bnd o p : Bytes)
    (h : ∀ a b, prims.tld a b = none) :
    decryptV2AfterBinding prims payload s bnd o p = none := by
  unfold decryptV2AfterBinding
  cases hw : (jGetStr2 payload ("W_time".toList) ("ct".toList)).bind bytesFromHex with
  | none => simp only [hw]
  | some wtime => simp only [hw, h]

theorem afterBinding_none_of_len (prims : Prims) (payload : JVal) (s bnd o p : Bytes)
    (h : ∀ r, (normalizeSkeK r).length ≠ 64) :
    decryptV2AfterBinding prims payload s bnd o p = none := by
  unfold decryptV2AfterBinding
  cases hw : (jGetStr2 payload ("W_time".toList) ("ct".toList)).bind bytesFromHex with
  | none => simp only [hw]
  | some wtime =>
      simp only [hw]
      cases ht : prims.tld wtime s with
      | none => simp only [ht]
      | some r =>
          simp only [ht]
          rw [if_neg (h r)]

theorem afterBinding_none_of_chacha (prims : Prims) (payload : JVal) (s bnd o p : Bytes)
    (h : ∀ k n c a, prims.chachaDecrypt k n c a = none) :
    decryptV2AfterBinding prims payload s bnd o p = none := by
  unfold decryptV2AfterBinding
  cases hw : (jGetStr2 payload ("W_time".toList) ("ct".toList)).bind bytesFromHex with
  | none => simp only [hw]
  | some wtime =>
      simp only [hw]
      cases ht : prims.tld wtime s with
      | none => simp only [ht]
      | some r =>
          simp only [ht]
          split
          · split
            · cases hn : (jGetStr2 payload ("W_owner".toList) ("nonce".toList)).bind
                  bytesFromHex with
              | none => simp only [hn]
              | some nonce =>
                  simp only [hn]
                  cases hwct : (jGetStr2 payload ("W_owner".toList) ("ct".toList)).bind
                      bytesFromHex with
                  | none => simp only [hwct]
                  | some wct => simp only [hwct, h]
            · rfl
          · rfl

/-! ## C2: the binding commitment and its gate -/

/-- C2 (amended): past the owner-key gate, V2 decryption recomputes the binding
as `SHA256(hk ‖ ":" ‖ round ‖ ":" ‖ owner_pk ‖ ":" ‖ ephemeral_pub)` — a ":"
separator between every pair of components, not only after the hotkey — and
proceeds beyond the binding gate exactly when the payload's declared binding
bytes equal this hash: on equality decryption continues with the post-binding
stage, on inequality it yields absent. -/
theorem C2_binding_gate (cfg : Config) (prims : Prims) (payload : JVal) (s : Bytes)
    (owner_pk pke : Bytes) (hk : PyStr) (rnd : Int) (declared : Bytes)
    (howner : bytesFromHex (configuredOwnerHex cfg) = some owner_pk)
    (hpke : (jGetStr2 payload ("W_owner".toList) ("pke".toList)).bind bytesFromHex = some pke)
    (hhk : jGetStr payload ("hk".toList) = some hk)
    (hrnd : (jGet payload ("round".toList)).bind pyToInt = some rnd)
    (hdecl : (jGetStr payload ("binding".toList)).bind bytesFromHex = some declared) :
    decryptV2AfterOwner cfg prims payload s =
      if declared =
          sha256 (strToUtf8 hk ++ [58] ++ intToDecBytes rnd ++ [58] ++ owner_pk ++ [58] ++ pke)
      then decryptV2AfterBinding prims payload s declared owner_pk pke
      else none := by
  rw [afterOwner_gate cfg prims payload s owner_pk pke hk rnd declared howner hpke hhk hrnd
    hdecl]
  have hb : binding hk rnd owner_pk pke =
      sha256 (strToUtf8 hk ++ [58] ++ intToDecBytes rnd ++ [58] ++ owner_pk ++ [58] ++ pke) :=
    rfl
  rw [hb]
  by_cases h : declared =
      sha256 (strToUtf8 hk ++ [58] ++ intToDecBytes rnd ++ [58] ++ owner_pk ++ [58] ++ pke)
  · rw [if_pos h, if_pos h, h]
  · rw [if_neg h, if_neg h]

/-- Witness for C2 on the concrete fixture payload: the gate condition holds and
decryption proceeds to the post-binding stage, which succeeds. -/
theorem C2_binding_gate_witness :
    decryptV2AfterOwner cfgW primsW payloadW [1] = some [42] := by
  rw [C2_binding_gate cfgW primsW payloadW [1] [0xaa] [0xbb] ("h".toList) 5 bindW rfl rfl rfl
    rfl rfl]
  decide

/-- Counterexample to C2 as stated: with the hotkey context `"h"`, round 5,
owner key byte `0xaa` and ephemeral key byte `0xbb`, the commitment the code
computes differs from `SHA256(hk ‖ ":" ‖ round ‖ owner_pk ‖ ephemeral_pub)`
(the claim's preimage with a single separator). -/
theorem C2_counterexample :
    bindingSpecWorded ("h".toList) 5 [0xaa] [0xbb] ≠ binding ("h".toList) 5 [0xaa] [0xbb] := by
  decide

/-! ## C5: the owner-key gate -/

/-- C5 (amended): V2 decryption yields absent whenever no owner key is
configured (after stripping), and whenever the payload's `owner_pk` field is a
string that does not equal the configured key up to ASCII case; when the field
is absent, not a string, or case-insensitively equal, the check is passed and
decryption continues with the configured key. -/
theorem C5_owner_key_gate (cfg : Config) (prims : Prims) (payload : JVal)
    (sig : Option Bytes) :
    (configuredOwnerHex cfg = [] → decrypt_v2_payload cfg prims payload sig = none) ∧
    (∀ p, jGet payload ("owner_pk".toList) = some (JVal.str p) →
        lowerAscii p ≠ lowerAscii (configuredOwnerHex cfg) →
        decrypt_v2_payload cfg prims payload sig = none) ∧
    (∀ s, sig = some s → s ≠ [] → configuredOwnerHex cfg ≠ [] →
        (∀ p, jGet payload ("owner_pk".toList) = some (JVal.str p) →
            lowerAscii p = lowerAscii (configuredOwnerHex cfg)) →
        decrypt_v2_payload cfg prims payload sig = decryptV2AfterOwner cfg prims payload s) := by
  refine ⟨?_, ?_, ?_⟩
  · intro h
    cases sig with
    | none => rfl
    | some s =>
        rw [decrypt_v2_payload_some]
        simp [h]
  · intro p hp hne
    cases sig with
    | none => rfl
    | some s =>
        rw [decrypt_v2_payload_some]
        split
        · rfl
        · split
          · rfl
          · simp only [hp]
            rw [if_neg hne]
  · intro s hs hsne hconf hcase
    subst hs
    rw [decrypt_v2_payload_some]
    rw [if_neg hsne, if_neg hconf]
    cases hj : jGet payload (("owner_pk".toList)) with
    | none => simp only [hj]
    | some v =>
        cases v with
        | str p =>
            simp only [hj]
            rw [if_pos (hcase p hj)]
        | null => simp only [hj]
        | bool b => simp only [hj]
        | num q => simp only [hj]
        | arr l => simp only [hj]
        | obj f => simp only [hj]

/-- Witness for C5: with no configured owner key, decryption of the fixture
payload yields absent. -/
theorem C5_owner_key_gate_witness :
    decrypt_v2_payload cfgEmptyW primsW payloadW (some [1]) = none :=
  (C5_owner_key_gate cfgEmptyW primsW payloadW (some [1])).1 rfl

/-- Counterexample to C5 as stated: the fixture payload's `owner_pk` field is
`"AA"`, which does not equal the configured key `"aa"`, yet decryption succeeds
(the source compares the two strings lowercased). -/
theorem C5_counterexample :
    jGet payloadW ("owner_pk".toList) = some (JVal.str ("AA".toList)) ∧
    configuredOwnerHex cfgW = ("aa".toList) ∧
    (("AA".toList) : PyStr) ≠ ("aa".toList) ∧
    decrypt_v2_payload cfgW primsW payloadW (some [1]) = some [42] :=
  ⟨rfl, rfl, by decide, by decide⟩

/-! ## C1: fail-closed totality of V2 decryption -/

/-- C1: `_decrypt_v2_payload` is total and fail-closed — for every payload
value, signature (absent, empty or present) and owner-key configuration it
returns either plaintext bytes or absent, and each step failure (absent or
empty signature, unconfigured owner key, missing `W_owner.pke` or `hk` field,
missing or malformed `binding` hex, binding-hash mismatch, time-lock failure,
wrong unwrapped-secret length, AEAD authentication failure) yields absent. -/
theorem C1_decrypt_v2_fail_closed (cfg : Config) (prims : Prims) (payload : JVal)
    (sig : Option Bytes) :
    (decrypt_v2_payload cfg prims payload sig = none ∨
      ∃ pt, decrypt_v2_payload cfg prims payload sig = some pt) ∧
    (sig = none → decrypt_v2_payload cfg prims payload sig = none) ∧
    (sig = some [] → decrypt_v2_payload cfg prims payload sig = none) ∧
    (configuredOwnerHex cfg = [] → decrypt_v2_payload cfg prims payload sig = none) ∧
    (jGetStr2 payload ("W_owner".toList) ("pke".toList) = none →
      decrypt_v2_payload cfg prims payload sig = none) ∧
    (jGetStr payload ("hk".toList) = none →
      decrypt_v2_payload cfg prims payload sig = none) ∧
    ((jGetStr payload ("binding".toList)).bind bytesFromHex = none →
      decrypt_v2_payload cfg prims payload sig = none) ∧
    (∀ s owner_pk pke hk rnd declared, sig = some s →
        bytesFromHex (configuredOwnerHex cfg) = some owner_pk →
        (jGetStr2 payload ("W_owner".toList) ("pke".toList)).bind bytesFromHex = some pke →
        jGetStr payload ("hk".toList) = some hk →
        (jGet payload ("round".toList)).bind pyToInt = some rnd →
        (jGetStr payload ("binding".toList)).bind bytesFromHex = some declared →
        declared ≠ binding hk rnd owner_pk pke →
        decrypt_v2_payload cfg prims payload sig = none) ∧
    ((∀ a b, prims.tld a b = none) → decrypt_v2_payload cfg prims payload sig = none) ∧
    ((∀ r, (normalizeSkeK r).length ≠ 64) →
      decrypt_v2_payload cfg prims payload sig = none) ∧
    ((∀ k n c a, prims.chachaDecrypt k n c a = none) →
      decrypt_v2_payload cfg prims payload sig = none) := by
  refine ⟨?_, ?_, ?_, ?_, ?_, ?_, ?_, ?_, ?_, ?_, ?_⟩
  · cases h : decrypt_v2_payload cfg prims payload sig with
    | none => exact Or.inl rfl
    | some pt => exact Or.inr ⟨pt, rfl⟩
  · intro h; subst h; rfl
  · intro h; subst h
    rw [decrypt_v2_payload_some]
    simp
  · intro h
    exact (C5_owner_key_gate cfg prims payload sig).1 h
  · intro h
    exact decrypt_none_of_afterOwner_none cfg prims payload sig
      (fun s => afterOwner_none_of_pke cfg prims payload s h)
  · intro h
    exact decrypt_none_of_afterOwner_none cfg prims payload sig
      (fun s => afterOwner_none_of_hk cfg prims payload s h)
  · intro h
    exact decrypt_none_of_afterOwner_none cfg prims payload sig
      (fun s => afterOwner_none_of_binding cfg prims payload s h)
  · intro s owner_pk pke hk rnd declared hs howner hpke hhk hrnd hdecl hne
    have hao : decryptV2AfterOwner cfg prims payload s = none := by
      rw [afterOwner_gate cfg prims payload s owner_pk pke hk rnd declared howner hpke hhk
        hrnd hdecl]
      exact if_neg hne
    subst hs
    rw [decrypt_v2_payload_some]
    split
    · rfl
    · split
      · rfl
      · split
        · split
          · exact hao
          · rfl
        · exact hao
  · intro h
    exact decrypt_none_of_afterOwner_none cfg prims payload sig
      (fun s => afterOwner_none_of_afterBinding cfg prims payload s
        (fun bnd o p => afterBinding_none_of_tld prims payload s bnd o p h))
  · intro h
    exact decrypt_none_of_afterOwner_none cfg prims payload sig
      (fun s => afterOwner_none_of_afterBinding cfg prims payload s
        (fun bnd o p => afterBinding_none_of_len prims payload s bnd o p h))
  · intro h
    exact decrypt_none_of_afterOwner_none cfg prims payload sig
      (fun s => afterOwner_none_of_afterBinding cfg prims payload s
        (fun bnd o p => afterBinding_none_of_chacha prims payload s bnd o p h))

/-- Witness for C1: the absent-signature component at the fixture payload. -/
theorem C1_decrypt_v2_fail_closed_witness :
    decrypt_v2_payload cfgW primsW payloadW none = none :=
  (C1_decrypt_v2_fail_closed cfgW primsW payloadW none).2.1 rfl

/-! ## Validator lemmas and C4 -/

theorem dictLookup_cons {α β : Type} [DecidableEq α] (k : α) (v : β) (l : List (α × β))
    (k' : α) :
    dictLookup ((k, v) :: l) k' = if k = k' then some v else dictLookup l k' := rfl

theorem vecValsAux_some {l : List JVal} {v : List Rat} (h : vecValsAux l = some v) :
    v.length = l.length ∧ ∀ q ∈ v, -1 ≤ q ∧ q ≤ 1 := by
  induction l generalizing v with
  | nil =>
      simp [vecValsAux] at h
      subst h
      simp
  | cons x rest ih =>
      unfold vecValsAux at h
      cases hn : numVal x with
      | none =>
          cases hr : vecValsAux rest <;> simp [hn, hr] at h
      | some q =>
          cases hr : vecValsAux rest with
          | none => simp [hn, hr] at h
          | some r =>
              simp only [hn, hr] at h
              by_cases hq : -1 ≤ q ∧ q ≤ 1
              · rw [if_pos hq] at h
                obtain ⟨h1, h2⟩ := ih hr
                simp only [Option.some.injEq] at h
                subst h
                refine ⟨by simp [h1], ?_⟩
                intro z hz
                rcases List.mem_cons.mp hz with hz | hz
                · subst hz; exact hq
                · exact h2 z hz
              · rw [if_neg hq] at h; simp at h

theorem vecVals_arr (dim : Nat) (l : List JVal) :
    vecVals dim (JVal.arr l) = if l.length = dim then vecValsAux l else none := rfl

theorem vecVals_some {dim : Nat} {j : JVal} {v : List Rat} (h : vecVals dim j = some v) :
    v.length = dim ∧ ∀ q ∈ v, -1 ≤ q ∧ q ≤ 1 := by
  cases j with
  | arr l =>
      rw [vecVals_arr] at h
      split at h
      · rename_i hlen
        obtain ⟨h1, h2⟩ := vecValsAux_some h
        exact ⟨h1.trans hlen, h2⟩
      · simp at h
  | null => simp [vecVals] at h
  | bool b => simp [vecVals] at h
  | num q => simp [vecVals] at h
  | str s => simp [vecVals] at h
  | obj f => simp [vecVals] at h

theorem find?_dim {cs : List Challenge} (hnd : (cs.map (·.ticker)).Nodup) {c : Challenge}
    (hc : c ∈ cs) : (cs.find? (fun x => x.ticker = c.ticker)).map (·.dim) = some c.dim := by
  induction cs with
  | nil => simp at hc
  | cons d t ih =>
      rw [List.map_cons, List.nodup_cons] at hnd
      obtain ⟨hd, ht⟩ := hnd
      rcases List.mem_cons.mp hc with hc | hc
      · subst hc
        rw [List.find?_cons_of_pos _ (by simp)]
        simp
      · have hne : ¬ (d.ticker = c.ticker) := by
          intro he
          exact hd (he ▸ List.mem_map.mpr ⟨c, hc, rfl⟩)
        rw [List.find?_cons_of_neg _ (by simp [hne])]
        exact ih ht hc

theorem assetDim_of_mem (cfg : Config) (hnd : (cfg.challenges.map (·.ticker)).Nodup)
    {c : Challenge} (hc : c ∈ cfg.challenges) : cfg.assetDim c.ticker = some c.dim :=
  find?_dim hnd hc

theorem assetDim_mem_tickers {cfg : Config} {t : PyStr} {d : Nat}
    (h : cfg.assetDim t = some d) : t ∈ cfg.challenges.map (·.ticker) := by
  unfold Config.assetDim at h
  cases hf : cfg.challenges.find? (fun x => x.ticker = t) with
  | none => rw [hf] at h; simp at h
  | some c =>
      have hp := List.find?_some hf
      have hm := List.mem_of_find?_eq_some hf
      have hct : c.ticker = t := by simpa using hp
      exact hct ▸ List.mem_map.mpr ⟨c, hm, rfl⟩

theorem dictSet_fresh {α β : Type} [DecidableEq α] {l : List (α × β)} {k : α} (v : β)
    (h : k ∉ l.map Prod.fst) : dictSet l k v = l ++ [(k, v)] := by
  induction l with
  | nil => rfl
  | cons p t ih =>
      rw [List.map_cons, List.mem_cons, not_or] at h
      obtain ⟨h1, h2⟩ := h
      have hne : ¬ p.1 = k := fun he => h1 he.symm
      simp [dictSet, hne, ih h2]

theorem foldl_dictSet_map {α β γ : Type} [DecidableEq α] (key : γ → α) (val : γ → β) :
    ∀ (cs : List γ) (acc : List (α × β)),
      (∀ c ∈ cs, key c ∉ acc.map Prod.fst) → (cs.map key).Nodup →
      cs.foldl (fun a c => dictSet a (key c) (val c)) acc =
        acc ++ cs.map (fun c => (key c, val c)) := by
  intro cs
  induction cs with
  | nil =>
      intro acc _ _
      simp
  | cons c t ih =>
      intro acc hfresh hnd
      rw [List.map_cons, List.nodup_cons] at hnd
      obtain ⟨hc, ht⟩ := hnd
      have h1 : key c ∉ acc.map Prod.fst := hfresh c (List.mem_cons_self _ _)
      rw [List.foldl_cons, dictSet_fresh (val c) h1, ih]
      · simp
      · intro c' hc'
        rw [List.map_append, List.mem_append, not_or]
        refine ⟨hfresh c' (List.mem_cons_of_mem _ hc'), ?_⟩
        simp only [List.map_cons, List.map_nil, List.mem_singleton]
        intro he
        exact hc (he ▸ List.mem_map.mpr ⟨c', hc', rfl⟩)
      · exact ht

theorem zero_vecs_eq (cfg : Config) (hnd : (cfg.challenges.map (·.ticker)).Nodup) :
    zero_vecs cfg = cfg.challenges.map (fun c => (c.ticker, zeroVec c.dim)) := by
  have heq : cfg.challenges.foldl (fun acc c => dictSet acc c.ticker (zeroVec c.dim)) [] =
      [] ++ cfg.challenges.map (fun c => (c.ticker, zeroVec c.dim)) :=
    foldl_dictSet_map (fun c : Challenge => c.ticker) (fun c => zeroVec c.dim)
      cfg.challenges [] (by simp) hnd
  unfold zero_vecs
  rw [heq, List.nil_append]

theorem map_ticker_lookup {cs : List Challenge} (val : Challenge → List Rat) {t : PyStr}
    {v : List Rat}
    (h : dictLookup (cs.map (fun c => (c.ticker, val c))) t = some v) :
    ∃ c, cs.find? (fun x => x.ticker = t) = some c ∧ v = val c := by
  induction cs with
  | nil => simp [dictLookup] at h
  | cons c cs' ih =>
      rw [List.map_cons, dictLookup_cons] at h
      by_cases hct : c.ticker = t
      · rw [if_pos hct] at h
        simp only [Option.some.injEq] at h
        exact ⟨c, by rw [List.find?_cons_of_pos _ (by simp [hct])], h.symm⟩
      · rw [if_neg hct] at h
        obtain ⟨c', hf, hv⟩ := ih h
        exact ⟨c', by rw [List.find?_cons_of_neg _ (by simp [hct])]; exact hf, hv⟩

theorem zero_vecs_lookup (cfg : Config) (hnd : (cfg.challenges.map (·.ticker)).Nodup)
    {t : PyStr} {v : List Rat} (h : dictLookup (zero_vecs cfg) t = some v) :
    ∃ d, cfg.assetDim t = some d ∧ v = zeroVec d := by
  rw [zero_vecs_eq cfg hnd] at h
  obtain ⟨c, hf, hv⟩ := map_ticker_lookup _ h
  refine ⟨c.dim, ?_, hv⟩
  unfold Config.assetDim
  rw [hf]
  rfl

theorem zero_vecs_good (cfg : Config) (hnd : (cfg.challenges.map (·.ticker)).Nodup) :
    ((zero_vecs cfg).map Prod.fst = cfg.challenges.map (·.ticker)) ∧
    (∀ t v, dictLookup (zero_vecs cfg) t = some v →
      ∃ d, cfg.assetDim t = some d ∧ v.length = d ∧
        (v = zeroVec d ∨ ∀ q ∈ v, -1 ≤ q ∧ q ≤ 1)) := by
  constructor
  · rw [zero_vecs_eq cfg hnd, List.map_map]
    rfl
  · intro t v hv
    obtain ⟨d, hd, hvz⟩ := zero_vecs_lookup cfg hnd hv
    subst hvz
    exact ⟨d, hd, by simp [zeroVec], Or.inl rfl⟩

theorem validateField_keys (cfg : Config) (out : List (PyStr × List Rat)) (p : PyStr × JVal)
    (hkeys : out.map Prod.fst = cfg.challenges.map (·.ticker)) :
    (validateField cfg out p).map Prod.fst = out.map Prod.fst := by
  unfold validateField
  by_cases hh : p.1 = ("hotkey".toList)
  · rw [if_pos hh]
  · rw [if_neg hh]
    cases hq : (if p.1 ∈ cfg.tickers then some p.1 else cfg.nameTicker p.1) with
    | none => simp only [hq]
    | some ticker =>
        simp only [hq]
        by_cases ht0 : ticker = []
        · rw [if_pos ht0]
        · rw [if_neg ht0]
          cases hd : cfg.assetDim ticker with
          | none => simp only [hd]
          | some dim =>
              simp only [hd]
              cases hw : vecVals dim p.2 with
              | none => simp only [hw]
              | some w =>
                  simp only [hw]
                  have hmem : ticker ∈ out.map Prod.fst := by
                    rw [hkeys]
                    exact assetDim_mem_tickers hd
                  rw [keys_dictSet, if_pos hmem]

theorem validateField_lookup (cfg : Config) (out : List (PyStr × List Rat)) (p : PyStr × JVal)
    (h : ∀ t v, dictLookup out t = some v →
      ∃ d, cfg.assetDim t = some d ∧ v.length = d ∧
        (v = zeroVec d ∨ ∀ q ∈ v, -1 ≤ q ∧ q ≤ 1)) :
    ∀ t v, dictLookup (validateField cfg out p) t = some v →
      ∃ d, cfg.assetDim t = some d ∧ v.length = d ∧
        (v = zeroVec d ∨ ∀ q ∈ v, -1 ≤ q ∧ q ≤ 1) := by
  intro t v hv
  unfold validateField at hv
  by_cases hh : p.1 = ("hotkey".toList)
  · rw [if_pos hh] at hv
    exact h t v hv
  · rw [if_neg hh] at hv
    cases hq : (if p.1 ∈ cfg.tickers then some p.1 else cfg.nameTicker p.1) with
    | none =>
        simp only [hq] at hv
        exact h t v hv
    | some ticker =>
        simp only [hq] at hv
        by_cases ht0 : ticker = []
        · rw [if_pos ht0] at hv
          exact h t v hv
        · rw [if_neg ht0] at hv
          cases hd : cfg.assetDim ticker with
          | none =>
              simp only [hd] at hv
              exact h t v hv
          | some dim =>
              simp only [hd] at hv
              cases hw : vecVals dim p.2 with
              | none =>
                  simp only [hw] at hv
                  exact h t v hv
              | some w =>
                  simp only [hw] at hv
                  rw [dictLookup_dictSet] at hv
                  by_cases hteq : t = ticker
                  · rw [if_pos hteq] at hv
                    obtain ⟨hl, hr⟩ := vecVals_some hw
                    simp only [Option.some.injEq] at hv
                    subst hv
                    exact ⟨dim, hteq ▸ hd, hl, Or.inr hr⟩
                  · rw [if_neg hteq] at hv
                    exact h t v hv

theorem validate_obj_fold (cfg : Config) :
    ∀ (fields : List (PyStr × JVal)) (out : List (PyStr × List Rat)),
      out.map Prod.fst = cfg.challenges.map (·.ticker) →
      (∀ t v, dictLookup out t = some v →
        ∃ d, cfg.assetDim t = some d ∧ v.length = d ∧
          (v = zeroVec d ∨ ∀ q ∈ v, -1 ≤ q ∧ q ≤ 1)) →
      ((fields.foldl (validateField cfg) out).map Prod.fst = cfg.challenges.map (·.ticker)) ∧
      (∀ t v, dictLookup (fields.foldl (validateField cfg) out) t = some v →
        ∃ d, cfg.assetDim t = some d ∧ v.length = d ∧
          (v = zeroVec d ∨ ∀ q ∈ v, -1 ≤ q ∧ q ≤ 1)) := by
  intro fields
  induction fields with
  | nil =>
      intro out h1 h2
      exact ⟨h1, h2⟩
  | cons p rest ih =>
      intro out h1 h2
      rw [List.foldl_cons]
      exact ih _ (by rw [validateField_keys cfg out p h1]; exact h1)
        (validateField_lookup cfg out p h2)

theorem zip_map_snd : ∀ (l : List JVal) (cs : List Challenge), l.length = cs.length →
    (l.zip cs).map Prod.snd = cs := by
  intro l
  induction l with
  | nil =>
      intro cs hlen
      cases cs with
      | nil => rfl
      | cons c cs' => simp at hlen
  | cons x l' ih =>
      intro cs hlen
      cases cs with
      | nil => simp at hlen
      | cons c cs' =>
          rw [List.zip_cons_cons, List.map_cons, ih cs' (by simpa using hlen)]

theorem zip_lookup_good : ∀ (l : List JVal) (cs : List Challenge), l.length = cs.length →
    ∀ {t : PyStr} {v : List Rat},
      dictLookup ((l.zip cs).map (fun p => (p.2.ticker, arrVal p))) t = some v →
      ∃ c, cs.find? (fun x => x.ticker = t) = some c ∧ v.length = c.dim ∧
        (v = zeroVec c.dim ∨ ∀ q ∈ v, -1 ≤ q ∧ q ≤ 1) := by
  intro l
  induction l with
  | nil =>
      intro cs hlen t v hv
      cases cs with
      | nil => simp [dictLookup] at hv
      | cons c cs' => simp at hlen
  | cons x l' ih =>
      intro cs hlen t v hv
      cases cs with
      | nil => simp at hlen
      | cons c cs' =>
          rw [List.zip_cons_cons, List.map_cons, dictLookup_cons] at hv
          by_cases hct : c.ticker = t
          · rw [if_pos hct] at hv
            simp only [Option.some.injEq] at hv
            subst hv
            refine ⟨c, by rw [List.find?_cons_of_pos _ (by simp [hct])], ?_⟩
            unfold arrVal
            cases hw : vecVals c.dim x with
            | none => exact ⟨by simp [zeroVec], Or.inl rfl⟩
            | some w =>
                obtain ⟨hl, hr⟩ := vecVals_some hw
                exact ⟨hl, Or.inr hr⟩
          · rw [if_neg hct] at hv
            obtain ⟨c', hf, hrest⟩ := ih cs' (by simpa using hlen) hv
            exact ⟨c', by rw [List.find?_cons_of_neg _ (by simp [hct])]; exact hf, hrest⟩

/-- C4: `_validate_submission` is total — for any decoded value it returns a
mapping whose keys are exactly the configured tickers, each bound to a vector
of exactly that challenge's dimension, and every returned vector is either the
all-zero default or a valid candidate (right length, all elements in `[-1, 1]`)
taken from the input. -/
theorem C4_validator_total (cfg : Config) (hnd : (cfg.challenges.map (·.ticker)).Nodup)
    (sub : JVal) :
    ((validate_submission cfg sub).map Prod.fst = cfg.challenges.map (·.ticker)) ∧
    ∀ c ∈ cfg.challenges, ∃ v,
      dictLookup (validate_submission cfg sub) c.ticker = some v ∧
      v.length = c.dim ∧ (v = zeroVec c.dim ∨ ∀ q ∈ v, -1 ≤ q ∧ q ≤ 1) := by
  suffices hsuf : ((validate_submission cfg sub).map Prod.fst =
      cfg.challenges.map (·.ticker)) ∧
      (∀ t v, dictLookup (validate_submission cfg sub) t = some v →
        ∃ d, cfg.assetDim t = some d ∧ v.length = d ∧
          (v = zeroVec d ∨ ∀ q ∈ v, -1 ≤ q ∧ q ≤ 1)) by
    obtain ⟨hk, hv⟩ := hsuf
    refine ⟨hk, ?_⟩
    intro c hc
    have hmem : c.ticker ∈ (validate_submission cfg sub).map Prod.fst := by
      rw [hk]
      exact List.mem_map.mpr ⟨c, hc, rfl⟩
    obtain ⟨v, hvl⟩ := dictLookup_isSome_of_mem_keys hmem
    obtain ⟨d, hd, hlen, hgood⟩ := hv _ _ hvl
    have hdc : d = c.dim := by
      rw [assetDim_of_mem cfg hnd hc] at hd
      exact (Option.some.injEq _ _ ▸ hd).symm ▸ rfl
    subst hdc
    exact ⟨v, hvl, hlen, hgood⟩
  cases sub with
  | arr l =>
      have harr : validate_submission cfg (JVal.arr l) =
          if l.length = cfg.challenges.length then
            (l.zip cfg.challenges).foldl (fun out p => dictSet out p.2.ticker (arrVal p)) []
          else zero_vecs cfg := rfl
      rw [harr]
      split
      · rename_i hlen
        have hkeysnd : (l.zip cfg.challenges).map (fun p => p.2.ticker) =
            cfg.challenges.map (·.ticker) := by
          have h2 := zip_map_snd l cfg.challenges hlen
          calc (l.zip cfg.challenges).map (fun p => p.2.ticker)
              = ((l.zip cfg.challenges).map Prod.snd).map (·.ticker) := by
                rw [List.map_map]; rfl
            _ = cfg.challenges.map (·.ticker) := by rw [h2]
        have heq : (l.zip cfg.challenges).foldl
              (fun out p => dictSet out p.2.ticker (arrVal p)) [] =
            [] ++ (l.zip cfg.challenges).map (fun p => (p.2.ticker, arrVal p)) :=
          foldl_dictSet_map (fun p : JVal × Challenge => p.2.ticker) arrVal
            (l.zip cfg.challenges) [] (by simp) (by rw [hkeysnd]; exact hnd)
        rw [heq, List.nil_append]
        constructor
        · rw [List.map_map]
          exact hkeysnd
        · intro t v hv
          obtain ⟨c, hf, hrest⟩ := zip_lookup_good l cfg.challenges hlen hv
          refine ⟨c.dim, ?_, hrest⟩
          unfold Config.assetDim
          rw [hf]
          rfl
      · exact zero_vecs_good cfg hnd
  | obj fields =>
      obtain ⟨hz1, hz2⟩ := zero_vecs_good cfg hnd
      exact validate_obj_fold cfg fields (zero_vecs cfg) hz1 hz2
  | null => exact zero_vecs_good cfg hnd
  | bool b => exact zero_vecs_good cfg hnd
  | num q => exact zero_vecs_good cfg hnd
  | str s => exact zero_vecs_good cfg hnd

/-- Witness for C4 at the fixture configuration and a wrong-shape input. -/
theorem C4_validator_total_witness :
    (cfgW.challenges.map (·.ticker)).Nodup ∧
    ((validate_submission cfgW (JVal.null)).map Prod.fst =
      cfgW.challenges.map (·.ticker)) :=
  ⟨by decide, (C4_validator_total cfgW (by decide) (JVal.null)).1⟩

/-! ## Dataset-constructor lemmas and C7 -/

theorem mem_insertBy {α : Type} (le : α → α → Bool) (x a : α) :
    ∀ l : List α, a ∈ insertBy le x l ↔ a = x ∨ a ∈ l := by
  intro l
  induction l with
  | nil => simp [insertBy]
  | cons y ys ih =>
      unfold insertBy
      by_cases h : le x y
      · simp [h, List.mem_cons]
      · rw [if_neg h, List.mem_cons, ih, List.mem_cons]
        tauto

theorem mem_sortBy {α : Type} (le : α → α → Bool) (a : α) :
    ∀ l : List α, a ∈ sortBy le l ↔ a ∈ l := by
  intro l
  induction l with
  | nil => simp [sortBy]
  | cons y ys ih =>
      unfold sortBy at ih ⊢
      rw [List.foldr_cons, mem_insertBy, ih, List.mem_cons]

theorem tdKeep_some (cfg : Config) (ch : ChallengeData) (allHks : List PyStr) (i : Int)
    (data : Sample) (future : Option Sample) (streak : Nat) (e : TDEntry)
    (hmax : 0 < cfg.maxUnchanged)
    (h : tdKeep cfg ch allHks i data future streak = some e) :
    0 < e.priceNow ∧ 0 < e.priceFut ∧ e.streak ≤ cfg.maxUnchanged ∧ e.sidx = i ∧
      data.price = some e.priceNow ∧ ∃ fut, future = some fut ∧ fut.price = some e.priceFut := by
  cases future with
  | none =>
      unfold tdKeep at h
      split at h
      · simp at h
      · cases hdp : data.price <;> simp [hdp] at h
  | some fut =>
      unfold tdKeep at h
      split at h
      · simp at h
      · rename_i hstr
        cases hdp : data.price with
        | none => simp [hdp] at h
        | some pn =>
            simp only [hdp] at h
            cases hfp : fut.price with
            | none => simp [hfp] at h
            | some pf =>
                simp only [hfp] at h
                split at h
                · simp at h
                · rename_i hple
                  split at h
                  · simp at h
                  · split at h
                    · simp only [Option.some.injEq] at h
                      subst h
                      rw [not_or] at hple
                      obtain ⟨h1, h2⟩ := hple
                      refine ⟨not_le.mp h1, not_le.mp h2, ?_, rfl, rfl, fut, rfl, hfp⟩
                      rcases Nat.lt_or_ge cfg.maxUnchanged streak with hlt | hge
                      · exact absurd ⟨hmax, hlt⟩ hstr
                      · exact hge
                    · simp at h

theorem tdLoop_mem (cfg : Config) (ch : ChallengeData) (allHks : List PyStr)
    (maxBlock : Option Int) (hmax : 0 < cfg.maxUnchanged) :
    ∀ (l : List (Int × Sample)) (prev : Option Rat) (streak : Nat) (e : TDEntry),
      e ∈ tdLoop cfg ch allHks maxBlock l prev streak →
      0 < e.priceNow ∧ 0 < e.priceFut ∧ e.streak ≤ cfg.maxUnchanged ∧
        (∃ data, (e.sidx, data) ∈ l ∧ data.price = some e.priceNow) ∧
        (∃ fut, dictLookup ch.sidx
            (e.sidx + ((ch.blocks_ahead / cfg.sampleEvery : Nat) : Int)) = some fut ∧
          fut.price = some e.priceFut) := by
  intro l
  induction l with
  | nil =>
      intro prev streak e he
      simp [tdLoop] at he
  | cons p rest ih =>
      intro prev streak e he
      rcases p with ⟨i, data⟩
      simp only [tdLoop] at he
      split at he
      · simp at he
      · rcases List.mem_append.mp he with he | he
        · have hk := Option.mem_toList.mp he
          have hk' : tdKeep cfg ch allHks i data
              (dictLookup ch.sidx (i + ((ch.blocks_ahead / cfg.sampleEvery : Nat) : Int)))
              (streakStep data.price prev streak).2 = some e := hk
          obtain ⟨h1, h2, h3, h4, h5, fut, hf1, hf2⟩ :=
            tdKeep_some cfg ch allHks i data _ _ e hmax hk'
          subst h4
          exact ⟨h1, h2, h3, ⟨data, List.mem_cons_self _ _, h5⟩, ⟨fut, hf1, hf2⟩⟩
        · obtain ⟨h1, h2, h3, ⟨data', hd1, hd2⟩, hfut⟩ := ih _ _ _ he
          exact ⟨h1, h2, h3, ⟨data', List.mem_cons_of_mem _ hd1, hd2⟩, hfut⟩

/-- C7: every sample retained by the per-challenge training loop of
`get_training_data_sync` (whose emitted rows and labels are exactly the
projections of `tdEntries`) has a present, strictly positive current price and
future price (at horizon `blocks_ahead // SAMPLE_EVERY` sample indices ahead),
and an unchanged-price streak within the configured maximum; samples violating
any of these are excluded. -/
theorem C7_dataset_exclusions (cfg : Config) (ch : ChallengeData) (maxBlock : Option Int)
    (hmax : 0 < cfg.maxUnchanged) :
    ∀ e ∈ tdEntries cfg ch maxBlock,
      0 < e.priceNow ∧ 0 < e.priceFut ∧ e.streak ≤ cfg.maxUnchanged ∧
        (∃ data, (e.sidx, data) ∈ ch.sidx ∧ data.price = some e.priceNow) ∧
        (∃ fut, dictLookup ch.sidx
            (e.sidx + ((ch.blocks_ahead / cfg.sampleEvery : Nat) : Int)) = some fut ∧
          fut.price = some e.priceFut) := by
  intro e he
  obtain ⟨h1, h2, h3, ⟨data, hd1, hd2⟩, hfut⟩ :=
    tdLoop_mem cfg ch (allEmbHotkeys ch) maxBlock hmax _ none 0 e he
  exact ⟨h1, h2, h3, ⟨data, (mem_sortBy _ _ _).mp hd1, hd2⟩, hfut⟩

/-- Witness for C7 at a concrete two-sample challenge series. -/
theorem C7_dataset_exclusions_witness :
    0 < cfgW.maxUnchanged ∧
    ∀ e ∈ tdEntries cfgW chTD none,
      0 < e.priceNow ∧ 0 < e.priceFut ∧ e.streak ≤ cfgW.maxUnchanged ∧
        (∃ data, (e.sidx, data) ∈ chTD.sidx ∧ data.price = some e.priceNow) ∧
        (∃ fut, dictLookup chTD.sidx
            (e.sidx + ((chTD.blocks_ahead / cfgW.sampleEvery : Nat) : Int)) = some fut ∧
          fut.price = some e.priceFut) :=
  ⟨by decide, C7_dataset_exclusions cfgW chTD none (by decide)⟩

/-! ## Merge-phase lemmas and C6 -/

theorem challUpdate_mem : ∀ (chs : List (PyStr × ChallengeData)) (k : PyStr)
    (f : ChallengeData → ChallengeData) (chs' : List (PyStr × ChallengeData)),
    challUpdate chs k f = some chs' → ∃ ch, dictLookup chs k = some ch := by
  intro chs
  induction chs with
  | nil =>
      intro k f chs' h
      simp [challUpdate] at h
  | cons p rest ih =>
      intro k f chs' h
      unfold challUpdate at h
      by_cases hpk : p.1 = k
      · rw [if_pos hpk] at h
        exact ⟨p.2, by simp [dictLookup, hpk]⟩
      · rw [if_neg hpk] at h
        cases hrec : challUpdate rest k f with
        | none => rw [hrec] at h; simp at h
        | some rest' =>
            obtain ⟨ch, hch⟩ := ih k f rest' hrec
            exact ⟨ch, by simp [dictLookup, hpk, hch]⟩

theorem challUpdate_lookup : ∀ (chs : List (PyStr × ChallengeData)) (k : PyStr)
    (f : ChallengeData → ChallengeData) (chs' : List (PyStr × ChallengeData)),
    challUpdate chs k f = some chs' →
    ∀ t, dictLookup chs' t =
      if t = k then (dictLookup chs k).map f else dictLookup chs t := by
  intro chs
  induction chs with
  | nil =>
      intro k f chs' h
      simp [challUpdate] at h
  | cons p rest ih =>
      intro k f chs' h t
      unfold challUpdate at h
      by_cases hpk : p.1 = k
      · rw [if_pos hpk] at h
        simp only [Option.some.injEq] at h
        subst h
        by_cases htk : t = k
        · subst htk
          rw [if_pos rfl]
          simp [dictLookup_cons, dictLookup, hpk]
        · rw [if_neg htk]
          have hkt : ¬ k = t := fun he => htk he.symm
          have hpt : ¬ p.1 = t := by rw [hpk]; exact hkt
          simp [dictLookup_cons, dictLookup, hkt, hpt]
      · rw [if_neg hpk] at h
        cases hrec : challUpdate rest k f with
        | none => rw [hrec] at h; simp at h
        | some rest' =>
            rw [hrec] at h
            simp only [Option.map_some', Option.some.injEq] at h
            subst h
            by_cases htk : t = k
            · subst htk
              rw [if_pos rfl]
              have hrw := ih t f rest' hrec t
              rw [if_pos rfl] at hrw
              simp [dictLookup, hpk, hrw]
            · rw [if_neg htk]
              have hrw := ih k f rest' hrec t
              rw [if_neg htk] at hrw
              by_cases hpt : p.1 = t <;> simp [dictLookup, hpt, hrw]

theorem set_emb_sidx_self (ch : ChallengeData) (i : Int) (hk : PyStr) (vec : List Rat) :
    dictLookup (ch.set_emb i hk vec).sidx i =
      some (sampleAfterSetEmb ((dictLookup ch.sidx i).getD emptySample) hk vec) := by
  unfold ChallengeData.set_emb
  rw [dictLookup_dictModify, if_pos rfl]

theorem set_emb_sidx_ne (ch : ChallengeData) (i i' : Int) (hk : PyStr) (vec : List Rat)
    (h : i' ≠ i) :
    dictLookup (ch.set_emb i hk vec).sidx i' = dictLookup ch.sidx i' := by
  unfold ChallengeData.set_emb
  rw [dictLookup_dictModify, if_neg h]

theorem sampleAfterSetEmb_lookup (s : Sample) (hk hk' : PyStr) (vec : List Rat) :
    dictLookup (sampleAfterSetEmb s hk vec).emb hk' =
      if hk' = hk then some vec else dictLookup s.emb hk' :=
  dictLookup_dictSet s.emb hk hk' vec

theorem writeVec_some (i : Int) (hk : PyStr) (chs : List (PyStr × ChallengeData))
    (tv : PyStr × List Rat) :
    writeVec i hk (some chs) tv =
      if tv.2.any (fun q => ¬ (q = 0)) then
        challUpdate chs tv.1 (fun ch => ch.set_emb i hk tv.2)
      else some chs := rfl

theorem writeVec_zero (i : Int) (hk : PyStr) (chs : List (PyStr × ChallengeData))
    (tv : PyStr × List Rat) (hz : tv.2.any (fun q => ¬ (q = 0)) = false) :
    writeVec i hk (some chs) tv = some chs := by
  rw [writeVec_some, hz]
  simp

theorem writeVec_target (i : Int) (hk : PyStr) (chs chs' : List (PyStr × ChallengeData))
    (t : PyStr) (vec : List Rat)
    (h : writeVec i hk (some chs) (t, vec) = some chs')
    (hnz : vec.any (fun q => ¬ (q = 0)) = true) :
    embAt chs' t i hk = some vec := by
  unfold writeVec at h
  simp only [hnz, if_true] at h
  obtain ⟨ch, hch⟩ := challUpdate_mem chs t _ chs' h
  unfold embAt
  rw [challUpdate_lookup chs t _ chs' h t, if_pos rfl, hch]
  simp [set_emb_sidx_self, sampleAfterSetEmb_lookup]

theorem writeVec_preserve (i : Int) (hk : PyStr) (chs chs' : List (PyStr × ChallengeData))
    (tv : PyStr × List Rat) (h : writeVec i hk (some chs) tv = some chs')
    (t' : PyStr) (i' : Int) (hk' : PyStr)
    (hne : ¬ (t' = tv.1 ∧ i' = i ∧ hk' = hk)) :
    embAt chs' t' i' hk' = embAt chs t' i' hk' := by
  rw [writeVec_some] at h
  split at h
  · unfold embAt
    rw [challUpdate_lookup _ _ _ _ h t']
    by_cases ht : t' = tv.1
    · subst ht
      rw [if_pos rfl]
      cases hch : dictLookup chs tv.1 with
      | none => rfl
      | some ch =>
          simp only [Option.map_some']
          by_cases hi : i' = i
          · subst hi
            simp only [set_emb_sidx_self]
            have hhk : ¬ hk' = hk := fun hh => hne ⟨rfl, rfl, hh⟩
            rw [sampleAfterSetEmb_lookup, if_neg hhk]
            cases hsx : dictLookup ch.sidx i' with
            | none => rfl
            | some s0 => rfl
          · rw [set_emb_sidx_ne ch i i' hk tv.2 hi]
    · rw [if_neg ht]
  · simp only [Option.some.injEq] at h
    subst h
    rfl

theorem foldl_writeVec_none (i : Int) (hk : PyStr) :
    ∀ vecs : List (PyStr × List Rat), vecs.foldl (writeVec i hk) none = none := by
  intro vecs
  induction vecs with
  | nil => rfl
  | cons tv rest ih =>
      rw [List.foldl_cons]
      exact ih

theorem writeVecs_preserve (i : Int) (hk : PyStr) :
    ∀ (vecs : List (PyStr × List Rat)) (chs chs' : List (PyStr × ChallengeData)),
      vecs.foldl (writeVec i hk) (some chs) = some chs' →
      ∀ t' i' hk', (∀ v ∈ vecs, ¬ (t' = v.1 ∧ i' = i ∧ hk' = hk)) →
      embAt chs' t' i' hk' = embAt chs t' i' hk' := by
  intro vecs
  induction vecs with
  | nil =>
      intro chs chs' h t' i' hk' hcond
      simp only [List.foldl_nil, Option.some.injEq] at h
      subst h
      rfl
  | cons tv rest ih =>
      intro chs chs' h t' i' hk' hcond
      rw [List.foldl_cons] at h
      cases hw : writeVec i hk (some chs) tv with
      | none =>
          rw [hw, foldl_writeVec_none] at h
          simp at h
      | some chs1 =>
          rw [hw] at h
          have h1 := ih chs1 chs' h t' i' hk'
            (fun v hv => hcond v (List.mem_cons_of_mem _ hv))
          rw [h1]
          exact writeVec_preserve i hk chs chs1 tv hw t' i' hk'
            (hcond tv (List.mem_cons_self _ _))

theorem writeVecs_embAt (i : Int) (hk : PyStr) :
    ∀ (vecs : List (PyStr × List Rat)) (chs chs' : List (PyStr × ChallengeData)),
      vecs.foldl (writeVec i hk) (some chs) = some chs' →
      (vecs.map Prod.fst).Nodup →
      ∀ t vec, (t, vec) ∈ vecs →
        (vec.any (fun q => ¬ (q = 0)) = true → embAt chs' t i hk = some vec) ∧
        (vec.any (fun q => ¬ (q = 0)) = false → embAt chs' t i hk = embAt chs t i hk) := by
  intro vecs
  induction vecs with
  | nil =>
      intro chs chs' h hnd t vec hmem
      simp at hmem
  | cons tv rest ih =>
      intro chs chs' h hnd t vec hmem
      rw [List.map_cons, List.nodup_cons] at hnd
      obtain ⟨hnd1, hnd2⟩ := hnd
      rw [List.foldl_cons] at h
      cases hw : writeVec i hk (some chs) tv with
      | none =>
          rw [hw, foldl_writeVec_none] at h
          simp at h
      | some chs1 =>
          rw [hw] at h
          rcases List.mem_cons.mp hmem with hmem | hmem
          · have htv : tv = (t, vec) := hmem.symm
            subst htv
            have hrest : ∀ v ∈ rest, ¬ (t = v.1 ∧ i = i ∧ hk = hk) := by
              intro v hv hcontra
              exact hnd1 (hcontra.1 ▸ List.mem_map.mpr ⟨v, hv, rfl⟩)
            have hpres := writeVecs_preserve i hk rest chs1 chs' h t i hk hrest
            constructor
            · intro hnz
              rw [hpres]
              exact writeVec_target i hk chs chs1 t vec hw hnz
            · intro hz
              rw [hpres]
              have hid := writeVec_zero i hk chs (t, vec) hz
              rw [hid] at hw
              simp only [Option.some.injEq] at hw
              rw [← hw]
          · have htne : ¬ t = tv.1 := by
              intro he
              exact hnd1 (he ▸ List.mem_map.mpr ⟨(t, vec), hmem, rfl⟩)
            obtain ⟨hA, hB⟩ := ih chs1 chs' h hnd2 t vec hmem
            refine ⟨hA, ?_⟩
            intro hz
            rw [hB hz]
            exact writeVec_preserve i hk chs chs1 tv hw t i hk (fun hc => htne hc.1)

theorem writeHk_preserve (i : Int) (hkv : PyStr × List (PyStr × List Rat))
    (chs chs' : List (PyStr × ChallengeData)) (h : writeHk i (some chs) hkv = some chs')
    (t' : PyStr) (i' : Int) (hk' : PyStr) (hne : ¬ hk' = hkv.1) :
    embAt chs' t' i' hk' = embAt chs t' i' hk' :=
  writeVecs_preserve i hkv.1 hkv.2 chs chs' h t' i' hk' (fun _ _ hc => hne hc.2.2)

theorem foldl_writeHk_none (i : Int) :
    ∀ byHk : List (PyStr × List (PyStr × List Rat)), byHk.foldl (writeHk i) none = none := by
  intro byHk
  induction byHk with
  | nil => rfl
  | cons p rest ih =>
      rw [List.foldl_cons]
      have hstep : writeHk i none p = none := foldl_writeVec_none i p.1 p.2
      rw [hstep]
      exact ih

theorem foldl_writeHk_preserve (i : Int) :
    ∀ (byHk : List (PyStr × List (PyStr × List Rat))) (chs chs'),
      byHk.foldl (writeHk i) (some chs) = some chs' →
      ∀ t' i' hk', (∀ p ∈ byHk, ¬ hk' = p.1) →
      embAt chs' t' i' hk' = embAt chs t' i' hk' := by
  intro byHk
  induction byHk with
  | nil =>
      intro chs chs' h t' i' hk' hcond
      simp only [List.foldl_nil, Option.some.injEq] at h
      subst h
      rfl
  | cons p rest ih =>
      intro chs chs' h t' i' hk' hcond
      rw [List.foldl_cons] at h
      cases hw : writeHk i (some chs) p with
      | none =>
          rw [hw, foldl_writeHk_none] at h
          simp at h
      | some chs1 =>
          rw [hw] at h
          have h1 := ih chs1 chs' h t' i' hk'
            (fun v hv => hcond v (List.mem_cons_of_mem _ hv))
          rw [h1]
          exact writeHk_preserve i p chs chs1 hw t' i' hk' (hcond p (List.mem_cons_self _ _))

theorem mergeByHk_embAt (i : Int) :
    ∀ (byHk : List (PyStr × List (PyStr × List Rat))) (chs chs'),
      byHk.foldl (writeHk i) (some chs) = some chs' →
      (byHk.map Prod.fst).Nodup →
      (∀ p ∈ byHk, (p.2.map Prod.fst).Nodup) →
      ∀ hk vecs, (hk, vecs) ∈ byHk → ∀ t vec, (t, vec) ∈ vecs →
        (vec.any (fun q => ¬ (q = 0)) = true → embAt chs' t i hk = some vec) ∧
        (vec.any (fun q => ¬ (q = 0)) = false → embAt chs' t i hk = embAt chs t i hk) := by
  intro byHk
  induction byHk with
  | nil =>
      intro chs chs' h hnd1 hnd2 hk vecs hmem
      simp at hmem
  | cons p rest ih =>
      intro chs chs' h hnd1 hnd2 hk vecs hmem t vec hv
      rw [List.map_cons, List.nodup_cons] at hnd1
      obtain ⟨hp1, hp2⟩ := hnd1
      rw [List.foldl_cons] at h
      cases hw : writeHk i (some chs) p with
      | none =>
          rw [hw, foldl_writeHk_none] at h
          simp at h
      | some chs1 =>
          rw [hw] at h
          rcases List.mem_cons.mp hmem with hmem | hmem
          · have hpv : p = (hk, vecs) := hmem.symm
            subst hpv
            have hrest : ∀ q ∈ rest, ¬ hk = q.1 := by
              intro q hq he
              exact hp1 (he ▸ List.mem_map.mpr ⟨q, hq, rfl⟩)
            have hpres := foldl_writeHk_preserve i rest chs1 chs' h t i hk hrest
            obtain ⟨hA, hB⟩ := writeVecs_embAt i hk vecs chs chs1 hw
              (hnd2 (hk, vecs) (List.mem_cons_self _ _)) t vec hv
            exact ⟨fun hnz => by rw [hpres]; exact hA hnz,
                   fun hz => by rw [hpres]; exact hB hz⟩
          · have hkne : ¬ hk = p.1 := by
              intro he
              exact hp1 (he ▸ List.mem_map.mpr ⟨(hk, vecs), hmem, rfl⟩)
            obtain ⟨hA, hB⟩ := ih chs1 chs' h hp2
              (fun q hq => hnd2 q (List.mem_cons_of_mem _ hq)) hk vecs hmem t vec hv
            refine ⟨hA, ?_⟩
            intro hz
            rw [hB hz]
            exact writeHk_preserve i p chs chs1 hw t i hk hkne

/-- C6: in the merge phase of `process_pending_payloads`, for a decrypted
timestep whose block is aligned to the sampling interval, a challenge's vector
is written into that challenge's sample embeddings exactly when it contains a
non-zero element — a written vector is found at the sample, an all-zero vector
leaves the stored embedding unchanged — and nothing is written at a timestep
whose block is not aligned (the whole challenge map is returned untouched). -/
theorem C6_merge_nonzero_gate (cfg : Config) (blocks : List Int)
    (chs : List (PyStr × ChallengeData)) (ts : Nat) (b : Int)
    (byHk : List (PyStr × List (PyStr × List Rat)))
    (hb : blocks.get? ts = some b) :
    (Int.fmod b (cfg.sampleEvery : Int) ≠ 0 →
      mergeDec cfg blocks chs [(ts, byHk)] = some chs) ∧
    ((byHk.map Prod.fst).Nodup →
      (∀ p ∈ byHk, (p.2.map Prod.fst).Nodup) →
      ∀ chs', mergeDec cfg blocks chs [(ts, byHk)] = some chs' →
        Int.fmod b (cfg.sampleEvery : Int) = 0 →
        ∀ hk vecs t vec, (hk, vecs) ∈ byHk → (t, vec) ∈ vecs →
          (vec.any (fun q => ¬ (q = 0)) = true →
            embAt chs' t (Int.fdiv b (cfg.sampleEvery : Int)) hk = some vec) ∧
          (vec.any (fun q => ¬ (q = 0)) = false →
            embAt chs' t (Int.fdiv b (cfg.sampleEvery : Int)) hk =
              embAt chs t (Int.fdiv b (cfg.sampleEvery : Int)) hk)) := by
  have hsingle : mergeDec cfg blocks chs [(ts, byHk)] =
      (match blocks.get? ts with
       | none => none
       | some b0 =>
          if Int.fmod b0 (cfg.sampleEvery : Int) ≠ 0 then some chs
          else byHk.foldl (writeHk (Int.fdiv b0 (cfg.sampleEvery : Int))) (some chs)) := rfl
  constructor
  · intro hmod
    rw [hsingle]
    simp only [hb]
    rw [if_pos hmod]
  · intro hnd1 hnd2 chs' h hmod hk vecs t vec hm1 hm2
    rw [hsingle] at h
    simp only [hb] at h
    rw [if_neg (fun hcon => hcon hmod)] at h
    exact mergeByHk_embAt _ byHk chs chs' h hnd1 hnd2 hk vecs hm1 t vec hm2

/-- Witness for C6 on a concrete aligned merge with one non-zero vector. -/
theorem C6_merge_nonzero_gate_witness :
    embAt mergedW ("BTC".toList) 0 ("h1".toList) = some [1, 0] := by
  have h := (C6_merge_nonzero_gate cfgW [0] chsW 0 0 byHkW rfl).2 (by decide)
    (by decide) mergedW rfl rfl ("h1".toList) [(("BTC".toList), [1, 0])]
    ("BTC".toList) [1, 0] (by decide) (by decide)
  simpa using h.1 (by decide)

/-! ## Maturity-scan and removal lemmas, C3 -/

theorem mem_keys_of_lookup {α β : Type} [DecidableEq α] {l : List (α × β)} {k : α} {v : β}
    (h : dictLookup l k = some v) : k ∈ l.map Prod.fst := by
  by_contra hnot
  rw [(dictLookup_eq_none l k).mpr hnot] at h
  simp at h

theorem not_mem_keys_dictRemove_self {α β : Type} [DecidableEq α] {l : List (α × β)} {k : α}
    (hnd : (l.map Prod.fst).Nodup) : k ∉ (dictRemove l k).map Prod.fst := by
  intro hmem
  obtain ⟨v, hv⟩ := dictLookup_isSome_of_mem_keys hmem
  rw [dictLookup_dictRemove_self hnd] at hv
  simp at hv

theorem collectItem_fst (ts : Nat) (acc : List (Nat × PyStr) × List (Int × List PendItem))
    (p : PyStr × RawPayload) :
    (collectItem ts acc p).1 = acc.1 ++ [(ts, p.1)] := by
  simp only [collectItem]
  split <;> rfl

theorem foldl_collectItem_fst (ts : Nat) :
    ∀ (items : List (PyStr × RawPayload)) (acc : List (Nat × PyStr) × List (Int × List PendItem)),
      (items.foldl (collectItem ts) acc).1 = acc.1 ++ items.map (fun p => (ts, p.1)) := by
  intro items
  induction items with
  | nil => intro acc; simp
  | cons p rest ih =>
      intro acc
      rw [List.foldl_cons, ih, collectItem_fst]
      simp

theorem collectEntry_immature {blocks : List Int} {current : Int}
    {acc : List (Nat × PyStr) × List (Int × List PendItem)}
    {entry : Nat × List (PyStr × RawPayload)} {b : Int}
    (hb : blocks.get? entry.1 = some b) (him : ¬ current - b ≥ 300) :
    collectEntry blocks current acc entry = some acc := by
  unfold collectEntry
  simp only [hb]
  rw [if_neg him]

theorem collectEntry_mature {blocks : List Int} {current : Int}
    {acc : List (Nat × PyStr) × List (Int × List PendItem)}
    {entry : Nat × List (PyStr × RawPayload)} {b : Int}
    (hb : blocks.get? entry.1 = some b) (hm : current - b ≥ 300) :
    collectEntry blocks current acc entry = some (entry.2.foldl (collectItem entry.1) acc) := by
  unfold collectEntry
  simp only [hb]
  rw [if_pos hm]

theorem collectStep_some (blocks : List Int) (current : Int)
    (mr : List (Nat × PyStr) × List (Int × List PendItem))
    (entry : Nat × List (PyStr × RawPayload)) :
    collectStep blocks current (some mr) entry = collectEntry blocks current mr entry := rfl

theorem foldl_collectStep_none (blocks : List Int) (current : Int) :
    ∀ payloads : List (Nat × List (PyStr × RawPayload)),
      payloads.foldl (collectStep blocks current) none = none := by
  intro payloads
  induction payloads with
  | nil => rfl
  | cons e rest ih =>
      rw [List.foldl_cons]
      exact ih

theorem collectEntry_fst_mono {blocks : List Int} {current : Int}
    {acc acc' : List (Nat × PyStr) × List (Int × List PendItem)}
    {entry : Nat × List (PyStr × RawPayload)}
    (h : collectEntry blocks current acc entry = some acc') :
    ∀ q ∈ acc.1, q ∈ acc'.1 := by
  unfold collectEntry at h
  cases hb : blocks.get? entry.1 with
  | none =>
      simp only [hb] at h
      exact Option.noConfusion h
  | some b =>
      simp only [hb] at h
      split at h <;> simp only [Option.some.injEq] at h <;> subst h
      · intro q hq
        rw [foldl_collectItem_fst]
        exact List.mem_append_left _ hq
      · intro q hq
        exact hq

theorem collectEntry_fst_src {blocks : List Int} {current : Int}
    {acc acc' : List (Nat × PyStr) × List (Int × List PendItem)}
    {entry : Nat × List (PyStr × RawPayload)}
    (h : collectEntry blocks current acc entry = some acc') :
    ∀ q ∈ acc'.1, q ∈ acc.1 ∨ q.1 = entry.1 := by
  unfold collectEntry at h
  cases hb : blocks.get? entry.1 with
  | none =>
      simp only [hb] at h
      exact Option.noConfusion h
  | some b =>
      simp only [hb] at h
      split at h <;> simp only [Option.some.injEq] at h <;> subst h
      · intro q hq
        rw [foldl_collectItem_fst] at hq
        rcases List.mem_append.mp hq with hq | hq
        · exact Or.inl hq
        · right
          obtain ⟨p, hp, hpe⟩ := List.mem_map.mp hq
          rw [← hpe]
      · intro q hq
        exact Or.inl hq

theorem collectFold_mem (blocks : List Int) (current : Int) :
    ∀ (payloads : List (Nat × List (PyStr × RawPayload)))
      (acc mr : List (Nat × PyStr) × List (Int × List PendItem)),
      payloads.foldl (collectStep blocks current) (some acc) = some mr →
      ∀ q ∈ acc.1, q ∈ mr.1 := by
  intro payloads
  induction payloads with
  | nil =>
      intro acc mr h q hq
      simp only [List.foldl_nil, Option.some.injEq] at h
      subst h
      exact hq
  | cons e rest ih =>
      intro acc mr h q hq
      rw [List.foldl_cons, collectStep_some] at h
      cases hstep : collectEntry blocks current acc e with
      | none =>
          rw [hstep, foldl_collectStep_none] at h
          simp at h
      | some acc1 =>
          rw [hstep] at h
          exact ih acc1 mr h q (collectEntry_fst_mono hstep q hq)

theorem collectFold_mature_mem (blocks : List Int) (current : Int) :
    ∀ (payloads : List (Nat × List (PyStr × RawPayload)))
      (acc mr : List (Nat × PyStr) × List (Int × List PendItem)),
      payloads.foldl (collectStep blocks current) (some acc) = some mr →
      ∀ (ts : Nat) (inner : List (PyStr × RawPayload)) (b : Int),
        (ts, inner) ∈ payloads → blocks.get? ts = some b → current - b ≥ 300 →
        ∀ hk ∈ inner.map Prod.fst, (ts, hk) ∈ mr.1 := by
  intro payloads
  induction payloads with
  | nil =>
      intro acc mr h ts inner b hmem
      simp at hmem
  | cons e rest ih =>
      intro acc mr h ts inner b hmem hb hmat hk hkm
      rw [List.foldl_cons, collectStep_some] at h
      cases hstep : collectEntry blocks current acc e with
      | none =>
          rw [hstep, foldl_collectStep_none] at h
          simp at h
      | some acc1 =>
          rw [hstep] at h
          rcases List.mem_cons.mp hmem with heq | hmem
          · subst heq
            rw [collectEntry_mature hb hmat] at hstep
            simp only [Option.some.injEq] at hstep
            subst hstep
            apply collectFold_mem blocks current rest _ mr h
            rw [foldl_collectItem_fst]
            apply List.mem_append_right
            obtain ⟨p, hp, hpe⟩ := List.mem_map.mp hkm
            exact List.mem_map.mpr ⟨p, hp, by rw [hpe]⟩
          · exact ih acc1 mr h ts inner b hmem hb hmat hk hkm

theorem collectFold_immature_not_mem (blocks : List Int) (current : Int) :
    ∀ (payloads : List (Nat × List (PyStr × RawPayload)))
      (acc mr : List (Nat × PyStr) × List (Int × List PendItem)),
      payloads.foldl (collectStep blocks current) (some acc) = some mr →
      ∀ (ts : Nat) (b : Int), blocks.get? ts = some b → current - b < 300 →
        (∀ hk, (ts, hk) ∉ acc.1) → ∀ hk, (ts, hk) ∉ mr.1 := by
  intro payloads
  induction payloads with
  | nil =>
      intro acc mr h ts b hb him hacc
      simp only [List.foldl_nil, Option.some.injEq] at h
      subst h
      exact hacc
  | cons e rest ih =>
      intro acc mr h ts b hb him hacc
      rw [List.foldl_cons, collectStep_some] at h
      cases hstep : collectEntry blocks current acc e with
      | none =>
          rw [hstep, foldl_collectStep_none] at h
          simp at h
      | some acc1 =>
          rw [hstep] at h
          apply ih acc1 mr h ts b hb him
          by_cases he : e.1 = ts
          · have hb' : blocks.get? e.1 = some b := by rw [he]; exact hb
            rw [collectEntry_immature hb' (not_le.mpr him)] at hstep
            simp only [Option.some.injEq] at hstep
            subst hstep
            exact hacc
          · intro hk hmem
            rcases collectEntry_fst_src hstep (ts, hk) hmem with hmem' | hfst
            · exact hacc hk hmem'
            · exact he (by simpa using hfst.symm)

theorem removeOne_none_self (r : List (Nat × List (PyStr × RawPayload))) (p : Nat × PyStr)
    (h : dictLookup r p.1 = none) : removeOne r p = r := by
  unfold removeOne
  simp [h]

theorem removeOne_eq_nil (r : List (Nat × List (PyStr × RawPayload))) (p : Nat × PyStr)
    (inner : List (PyStr × RawPayload)) (hl : dictLookup r p.1 = some inner)
    (hrm : dictRemove inner p.2 = []) :
    removeOne r p = dictRemove (dictSet r p.1 []) p.1 := by
  unfold removeOne
  simp only [hl]
  rw [hrm, dictLookup_dictSet, if_pos rfl]

theorem removeOne_eq_cons (r : List (Nat × List (PyStr × RawPayload))) (p : Nat × PyStr)
    (inner : List (PyStr × RawPayload)) (a : PyStr × RawPayload) (l : List (PyStr × RawPayload))
    (hl : dictLookup r p.1 = some inner) (hrm : dictRemove inner p.2 = a :: l) :
    removeOne r p = dictSet r p.1 (a :: l) := by
  unfold removeOne
  simp only [hl]
  rw [hrm, dictLookup_dictSet, if_pos rfl]

theorem removeOne_lookup_ne (r : List (Nat × List (PyStr × RawPayload))) (p : Nat × PyStr)
    (ts : Nat) (hne : ts ≠ p.1) :
    dictLookup (removeOne r p) ts = dictLookup r ts := by
  cases hl : dictLookup r p.1 with
  | none => rw [removeOne_none_self r p hl]
  | some inner =>
      cases hrm : dictRemove inner p.2 with
      | nil =>
          rw [removeOne_eq_nil r p inner hl hrm, dictLookup_dictRemove_ne _ hne,
              dictLookup_dictSet, if_neg hne]
      | cons a l =>
          rw [removeOne_eq_cons r p inner a l hl hrm, dictLookup_dictSet, if_neg hne]

theorem removeOne_nodup (r : List (Nat × List (PyStr × RawPayload))) (p : Nat × PyStr)
    (hnd : (r.map Prod.fst).Nodup) : ((removeOne r p).map Prod.fst).Nodup := by
  cases hl : dictLookup r p.1 with
  | none =>
      rw [removeOne_none_self r p hl]
      exact hnd
  | some inner =>
      have hmem : p.1 ∈ r.map Prod.fst := mem_keys_of_lookup hl
      cases hrm : dictRemove inner p.2 with
      | nil =>
          rw [removeOne_eq_nil r p inner hl hrm]
          apply nodup_keys_dictRemove
          rw [keys_dictSet, if_pos hmem]
          exact hnd
      | cons a l =>
          rw [removeOne_eq_cons r p inner a l hl hrm, keys_dictSet, if_pos hmem]
          exact hnd

theorem removeOne_lookup_none (r : List (Nat × List (PyStr × RawPayload))) (p : Nat × PyStr)
    (ts : Nat) (h : dictLookup r ts = none) :
    dictLookup (removeOne r p) ts = none := by
  by_cases hne : ts = p.1
  · subst hne
    rw [removeOne_none_self r p h]
    exact h
  · rw [removeOne_lookup_ne r p ts hne]
    exact h

theorem removeMature_lookup_none :
    ∀ (mature : List (Nat × PyStr)) (raw : List (Nat × List (PyStr × RawPayload))) (ts : Nat),
      dictLookup raw ts = none → dictLookup (removeMature raw mature) ts = none := by
  intro mature
  induction mature with
  | nil =>
      intro raw ts h
      exact h
  | cons p rest ih =>
      intro raw ts h
      exact ih (removeOne raw p) ts (removeOne_lookup_none raw p ts h)

theorem removeMature_lookup_preserve :
    ∀ (mature : List (Nat × PyStr)) (raw : List (Nat × List (PyStr × RawPayload))) (ts : Nat),
      (∀ hk, (ts, hk) ∉ mature) →
      dictLookup (removeMature raw mature) ts = dictLookup raw ts := by
  intro mature
  induction mature with
  | nil =>
      intro raw ts _
      rfl
  | cons p rest ih =>
      intro raw ts hno
      have hne : ts ≠ p.1 := by
        intro he
        exact hno p.2 (by rw [he]; exact List.mem_cons_self _ _)
      show dictLookup (removeMature (removeOne raw p) rest) ts = dictLookup raw ts
      rw [ih (removeOne raw p) ts (fun hk h => hno hk (List.mem_cons_of_mem _ h))]
      exact removeOne_lookup_ne raw p ts hne

theorem removeMature_none :
    ∀ (mature : List (Nat × PyStr)) (raw : List (Nat × List (PyStr × RawPayload)))
      (ts : Nat) (inner : List (PyStr × RawPayload)),
      (raw.map Prod.fst).Nodup →
      dictLookup raw ts = some inner →
      (inner.map Prod.fst).Nodup →
      inner ≠ [] →
      (∀ hk ∈ inner.map Prod.fst, (ts, hk) ∈ mature) →
      dictLookup (removeMature raw mature) ts = none := by
  intro mature
  induction mature with
  | nil =>
      intro raw ts inner hndr hl hndi hne hcov
      cases inner with
      | nil => exact absurd rfl hne
      | cons a l =>
          exact absurd (hcov a.1 (by rw [List.map_cons]; exact List.mem_cons_self _ _))
            (List.not_mem_nil _)
  | cons p rest ih =>
      intro raw ts inner hndr hl hndi hne hcov
      show dictLookup (removeMature (removeOne raw p) rest) ts = none
      by_cases hpt : p.1 = ts
      · have hl' : dictLookup raw p.1 = some inner := by rw [hpt]; exact hl
        cases hrm : dictRemove inner p.2 with
        | nil =>
            have hnone : dictLookup (removeOne raw p) ts = none := by
              rw [removeOne_eq_nil raw p inner hl' hrm, ← hpt]
              apply dictLookup_dictRemove_self
              rw [keys_dictSet, if_pos (mem_keys_of_lookup hl')]
              exact hndr
            exact removeMature_lookup_none rest (removeOne raw p) ts hnone
        | cons a l =>
            apply ih (removeOne raw p) ts (a :: l)
            · rw [removeOne_eq_cons raw p inner a l hl' hrm, keys_dictSet,
                  if_pos (mem_keys_of_lookup hl')]
              exact hndr
            · rw [removeOne_eq_cons raw p inner a l hl' hrm, dictLookup_dictSet,
                  if_pos hpt.symm]
            · rw [← hrm]
              exact nodup_keys_dictRemove _ hndi
            · simp
            · intro hk hmem
              have hmem' : hk ∈ (dictRemove inner p.2).map Prod.fst := by
                rw [hrm]
                exact hmem
              have h1 : hk ∈ inner.map Prod.fst := mem_keys_dictRemove hmem'
              have h2 : hk ≠ p.2 := by
                intro he
                subst he
                exact not_mem_keys_dictRemove_self hndi hmem'
              rcases List.mem_cons.mp (hcov hk h1) with heq | hmm
              · exfalso
                apply h2
                have := congrArg Prod.snd heq
                simpa using this
              · exact hmm
      · apply ih (removeOne raw p) ts inner
        · exact removeOne_nodup raw p hndr
        · rw [removeOne_lookup_ne raw p ts (fun he => hpt he.symm)]
          exact hl
        · exact hndi
        · exact hne
        · intro hk hmem
          rcases List.mem_cons.mp (hcov hk hmem) with heq | hmm
          · exfalso
            apply hpt
            have := congrArg Prod.fst heq
            simpa using this.symm
          · exact hmm

/-- C3: the maturity gate of `process_pending_payloads`.  A pending timestep
whose block is younger than 300 blocks is left untouched for a future pass; a
pending timestep at least 300 blocks old with a non-empty entry map has all its
entries removed and the emptied timestep deleted outright. -/
theorem C3_maturity_gate (cfg : Config) (prims : Prims) (oracle : Int → Option Bytes)
    (st st' : DataLogState) (current : Int) (ts : Nat) (b : Int)
    (inner : List (PyStr × RawPayload))
    (hndr : (st.raw_payloads.map Prod.fst).Nodup)
    (hndi : (inner.map Prod.fst).Nodup)
    (hcur : st.blocks.getLast? = some current)
    (hb : st.blocks.get? ts = some b)
    (hl : dictLookup st.raw_payloads ts = some inner)
    (hp : process_pending_payloads cfg prims oracle st = some st') :
    (current - b < 300 → dictLookup st'.raw_payloads ts = some inner) ∧
    (current - b ≥ 300 → inner ≠ [] → dictLookup st'.raw_payloads ts = none) := by
  have hrne : st.raw_payloads.isEmpty = false := by
    cases hrp : st.raw_payloads with
    | nil =>
        rw [hrp] at hl
        simp [dictLookup] at hl
    | cons q qs => rfl
  unfold process_pending_payloads at hp
  cases hcore : process_pending_core cfg prims oracle st with
  | none =>
      rw [hcore] at hp
      simp at hp
  | some out =>
      rw [hcore] at hp
      simp only [Option.map_some', Option.some.injEq] at hp
      unfold process_pending_core at hcore
      rw [hrne] at hcore
      simp only [Bool.false_eq_true, if_false] at hcore
      simp only [hcur] at hcore
      cases hcm : collectMature st.blocks current st.raw_payloads with
      | none =>
          simp only [hcm] at hcore
          exact Option.noConfusion hcore
      | some mr =>
          simp only [hcm] at hcore
          have hcm' : st.raw_payloads.foldl (collectStep st.blocks current) (some ([], [])) =
              some mr := hcm
          cases hemp : mr.1.isEmpty with
          | true =>
              simp only [hemp, if_true, Option.some.injEq] at hcore
              subst hcore
              rw [← hp]
              constructor
              · intro _
                exact hl
              · intro hmat hne
                exfalso
                cases inner with
                | nil => exact hne rfl
                | cons a l =>
                    have hcov := collectFold_mature_mem st.blocks current st.raw_payloads
                      ([], []) mr hcm' ts (a :: l) b (dictLookup_mem hl) hb hmat a.1
                      (by rw [List.map_cons]; exact List.mem_cons_self _ _)
                    rw [List.isEmpty_iff] at hemp
                    rw [hemp] at hcov
                    simp at hcov
          | false =>
              simp only [hemp, Bool.false_eq_true, if_false] at hcore
              cases hmg : mergeDec cfg st.blocks st.challenges
                  (decryptPhase cfg prims oracle st.drand_cache mr.2).dec with
              | none =>
                  simp only [hmg] at hcore
                  exact Option.noConfusion hcore
              | some chs' =>
                  simp only [hmg, Option.some.injEq] at hcore
                  subst hcore
                  rw [← hp]
                  constructor
                  · intro him
                    have hnom : ∀ hk, (ts, hk) ∉ mr.1 :=
                      collectFold_immature_not_mem st.blocks current st.raw_payloads
                        ([], []) mr hcm' ts b hb him (fun hk h => by simp at h)
                    show dictLookup (removeMature st.raw_payloads mr.1) ts = some inner
                    rw [removeMature_lookup_preserve mr.1 st.raw_payloads ts hnom]
                    exact hl
                  · intro hmat hne
                    have hcov : ∀ hk ∈ inner.map Prod.fst, (ts, hk) ∈ mr.1 :=
                      collectFold_mature_mem st.blocks current st.raw_payloads
                        ([], []) mr hcm' ts inner b (dictLookup_mem hl) hb hmat
                    exact removeMature_none mr.1 st.raw_payloads ts inner hndr hl hndi hne hcov

/-- Witness for C3: a 400-block-old pending entry is removed and its timestep
pruned by one processing pass. -/
theorem C3_maturity_gate_witness :
    dictLookup stC3removed.raw_payloads 0 = none :=
  (C3_maturity_gate cfgW primsW (fun _ => none) stC3 stC3removed 400 0 0
      [(("h1".toList), RawPayload.garbage)]
      (by decide) (by decide) rfl rfl rfl rfl).2
    (by decide) (List.cons_ne_nil _ _)

/-! ## Non-positive beacon rounds, C10 -/

theorem removeOne_inner_nodup (r : List (Nat × List (PyStr × RawPayload))) (p : Nat × PyStr)
    (ts : Nat) (hndr : (r.map Prod.fst).Nodup)
    (hprop : ∀ inner0, dictLookup r ts = some inner0 → (inner0.map Prod.fst).Nodup) :
    ∀ inner0, dictLookup (removeOne r p) ts = some inner0 → (inner0.map Prod.fst).Nodup := by
  intro inner0 h0
  by_cases hne : ts = p.1
  · subst hne
    cases hl : dictLookup r p.1 with
    | none =>
        rw [removeOne_none_self r p hl] at h0
        exact hprop inner0 h0
    | some innerA =>
        cases hrm : dictRemove innerA p.2 with
        | nil =>
            rw [removeOne_eq_nil r p innerA hl hrm,
                dictLookup_dictRemove_self
                  (by rw [keys_dictSet, if_pos (mem_keys_of_lookup hl)]; exact hndr)] at h0
            exact Option.noConfusion h0
        | cons a l =>
            rw [removeOne_eq_cons r p innerA a l hl hrm, dictLookup_dictSet, if_pos rfl] at h0
            simp only [Option.some.injEq] at h0
            subst h0
            rw [← hrm]
            exact nodup_keys_dictRemove _ (hprop innerA hl)
  · rw [removeOne_lookup_ne r p ts hne] at h0
    exact hprop inner0 h0

theorem removeOne_bind_none (r : List (Nat × List (PyStr × RawPayload))) (p : Nat × PyStr)
    (ts : Nat) (hk : PyStr) (hndr : (r.map Prod.fst).Nodup)
    (hprop : ∀ inner0, dictLookup r ts = some inner0 → (inner0.map Prod.fst).Nodup)
    (h : (dictLookup r ts).bind (fun i => dictLookup i hk) = none) :
    (dictLookup (removeOne r p) ts).bind (fun i => dictLookup i hk) = none := by
  by_cases hne : ts = p.1
  · subst hne
    cases hl : dictLookup r p.1 with
    | none =>
        rw [removeOne_none_self r p hl, hl]
        rfl
    | some innerA =>
        rw [hl] at h
        have hIA : dictLookup innerA hk = none := h
        cases hrm : dictRemove innerA p.2 with
        | nil =>
            rw [removeOne_eq_nil r p innerA hl hrm,
                dictLookup_dictRemove_self
                  (by rw [keys_dictSet, if_pos (mem_keys_of_lookup hl)]; exact hndr)]
            rfl
        | cons a l =>
            rw [removeOne_eq_cons r p innerA a l hl hrm, dictLookup_dictSet, if_pos rfl]
            show dictLookup (a :: l) hk = none
            rw [← hrm]
            by_cases hhk : hk = p.2
            · subst hhk
              exact dictLookup_dictRemove_self (hprop innerA hl)
            · rw [dictLookup_dictRemove_ne _ hhk]
              exact hIA
  · rw [removeOne_lookup_ne r p ts hne]
    exact h

theorem removeOne_pop_self (r : List (Nat × List (PyStr × RawPayload))) (p : Nat × PyStr)
    (hndr : (r.map Prod.fst).Nodup)
    (hprop : ∀ inner0, dictLookup r p.1 = some inner0 → (inner0.map Prod.fst).Nodup) :
    (dictLookup (removeOne r p) p.1).bind (fun i => dictLookup i p.2) = none := by
  cases hl : dictLookup r p.1 with
  | none =>
      rw [removeOne_none_self r p hl, hl]
      rfl
  | some innerA =>
      cases hrm : dictRemove innerA p.2 with
      | nil =>
          rw [removeOne_eq_nil r p innerA hl hrm,
              dictLookup_dictRemove_self
                (by rw [keys_dictSet, if_pos (mem_keys_of_lookup hl)]; exact hndr)]
          rfl
      | cons a l =>
          rw [removeOne_eq_cons r p innerA a l hl hrm, dictLookup_dictSet, if_pos rfl]
          show dictLookup (a :: l) p.2 = none
          rw [← hrm]
          exact dictLookup_dictRemove_self (hprop innerA hl)

theorem removeMature_bind_none :
    ∀ (mature : List (Nat × PyStr)) (raw : List (Nat × List (PyStr × RawPayload)))
      (ts : Nat) (hk : PyStr),
      (raw.map Prod.fst).Nodup →
      (∀ inner0, dictLookup raw ts = some inner0 → (inner0.map Prod.fst).Nodup) →
      (dictLookup raw ts).bind (fun i => dictLookup i hk) = none →
      (dictLookup (removeMature raw mature) ts).bind (fun i => dictLookup i hk) = none := by
  intro mature
  induction mature with
  | nil =>
      intro raw ts hk _ _ h
      exact h
  | cons p rest ih =>
      intro raw ts hk hndr hprop h
      exact ih (removeOne raw p) ts hk (removeOne_nodup raw p hndr)
        (removeOne_inner_nodup raw p ts hndr hprop)
        (removeOne_bind_none raw p ts hk hndr hprop h)

theorem removeMature_pop :
    ∀ (mature : List (Nat × PyStr)) (raw : List (Nat × List (PyStr × RawPayload)))
      (ts : Nat) (hk : PyStr),
      (raw.map Prod.fst).Nodup →
      (∀ inner0, dictLookup raw ts = some inner0 → (inner0.map Prod.fst).Nodup) →
      (ts, hk) ∈ mature →
      (dictLookup (removeMature raw mature) ts).bind (fun i => dictLookup i hk) = none := by
  intro mature
  induction mature with
  | nil =>
      intro raw ts hk _ _ hmem
      exact absurd hmem (List.not_mem_nil _)
  | cons p rest ih =>
      intro raw ts hk hndr hprop hmem
      rcases List.mem_cons.mp hmem with heq | hmem'
      · have hts : p.1 = ts := by rw [← heq]
        have hhk : p.2 = hk := by rw [← heq]
        apply removeMature_bind_none rest (removeOne raw p) ts hk
          (removeOne_nodup raw p hndr) (removeOne_inner_nodup raw p ts hndr hprop)
        rw [← hts, ← hhk]
        apply removeOne_pop_self raw p hndr
        intro inner0 h0
        apply hprop
        rw [← hts]
        exact h0
      · exact ih (removeOne raw p) ts hk (removeOne_nodup raw p hndr)
          (removeOne_inner_nodup raw p ts hndr hprop) hmem'

theorem decLookup_none (dec : List (Nat × List (PyStr × List (PyStr × List Rat)))) (ts : Nat)
    (hk : PyStr) (h : dictLookup dec ts = none) : decLookup dec ts hk = none := by
  unfold decLookup
  simp only [h]

theorem decLookup_some (dec : List (Nat × List (PyStr × List (PyStr × List Rat)))) (ts : Nat)
    (hk : PyStr) (inner : List (PyStr × List (PyStr × List Rat)))
    (h : dictLookup dec ts = some inner) : decLookup dec ts hk = dictLookup inner hk := by
  unfold decLookup
  simp only [h]

theorem decWrite_self (cfg : Config) (prims : Prims) (sig : Option Bytes)
    (d : List (Nat × List (PyStr × List (PyStr × List Rat)))) (it : PendItem) :
    decLookup (decWrite cfg prims sig d it) it.ts it.hk =
      some (decryptItem cfg prims sig it) := by
  have h1 : dictLookup (decWrite cfg prims sig d it) it.ts =
      some (dictSet ((dictLookup d it.ts).getD []) it.hk (decryptItem cfg prims sig it)) := by
    unfold decWrite
    rw [dictLookup_dictModify, if_pos rfl]
  rw [decLookup_some _ _ _ _ h1, dictLookup_dictSet, if_pos rfl]

theorem decWrite_ne (cfg : Config) (prims : Prims) (sig : Option Bytes)
    (d : List (Nat × List (PyStr × List (PyStr × List Rat)))) (it : PendItem)
    (ts : Nat) (hk : PyStr) (hne : ¬ (it.ts = ts ∧ it.hk = hk)) :
    decLookup (decWrite cfg prims sig d it) ts hk = decLookup d ts hk := by
  by_cases hts : ts = it.ts
  · subst hts
    have hhk : ¬ hk = it.hk := fun hh => hne ⟨rfl, hh.symm⟩
    have h1 : dictLookup (decWrite cfg prims sig d it) it.ts =
        some (dictSet ((dictLookup d it.ts).getD []) it.hk (decryptItem cfg prims sig it)) := by
      unfold decWrite
      rw [dictLookup_dictModify, if_pos rfl]
    rw [decLookup_some _ _ _ _ h1, dictLookup_dictSet, if_neg hhk]
    cases hdl : dictLookup d it.ts with
    | none =>
        rw [decLookup_none d it.ts hk hdl]
        rfl
    | some inn =>
        rw [decLookup_some d it.ts hk inn hdl]
        rfl
  · have h1 : dictLookup (decWrite cfg prims sig d it) ts = dictLookup d ts := by
      unfold decWrite
      rw [dictLookup_dictModify, if_neg hts]
    cases hdl : dictLookup d ts with
    | none => rw [decLookup_none _ _ _ (h1.trans hdl), decLookup_none _ _ _ hdl]
    | some inn => rw [decLookup_some _ _ _ _ (h1.trans hdl), decLookup_some _ _ _ _ hdl]

theorem foldl_decWrite_preserve (cfg : Config) (prims : Prims) (sig : Option Bytes)
    (ts : Nat) (hk : PyStr) :
    ∀ (items : List PendItem) (d : List (Nat × List (PyStr × List (PyStr × List Rat)))),
      (∀ it ∈ items, ¬ (it.ts = ts ∧ it.hk = hk)) →
      decLookup (items.foldl (decWrite cfg prims sig) d) ts hk = decLookup d ts hk := by
  intro items
  induction items with
  | nil =>
      intro d _
      rfl
  | cons it0 rest ih =>
      intro d hno
      rw [List.foldl_cons, ih _ (fun it hit => hno it (List.mem_cons_of_mem _ hit))]
      exact decWrite_ne cfg prims sig d it0 ts hk (hno it0 (List.mem_cons_self _ _))

theorem foldl_decWrite_zero (cfg : Config) (prims : Prims) (ts : Nat) (hk : PyStr) :
    ∀ (items : List PendItem) (d : List (Nat × List (PyStr × List (PyStr × List Rat)))),
      (∃ it ∈ items, it.ts = ts ∧ it.hk = hk) →
      decLookup (items.foldl (decWrite cfg prims none) d) ts hk =
        some (zero_vecs cfg) := by
  intro items
  induction items with
  | nil =>
      intro d hex
      obtain ⟨it, hit, _⟩ := hex
      exact absurd hit (List.not_mem_nil _)
  | cons it0 rest ih =>
      intro d hex
      rw [List.foldl_cons]
      by_cases hex' : ∃ it ∈ rest, it.ts = ts ∧ it.hk = hk
      · exact ih _ hex'
      · have hm : it0.ts = ts ∧ it0.hk = hk := by
          obtain ⟨it, hit, hm⟩ := hex
          rcases List.mem_cons.mp hit with heq | hit'
          · subst heq
            exact hm
          · exact absurd ⟨it, hit', hm⟩ hex'
        rw [foldl_decWrite_preserve cfg prims none ts hk rest _
            (fun it hit hc => hex' ⟨it, hit, hc⟩), ← hm.1, ← hm.2, decWrite_self]
        rfl

theorem processRound_nonpos (cfg : Config) (prims : Prims) (oracle : Int → Option Bytes)
    (acc : DecState) (g : Int × List PendItem) (hpos : ¬ g.1 > 0) :
    processRound cfg prims oracle acc g =
      ⟨g.2.foldl (decWrite cfg prims none) acc.dec, acc.cache, acc.fetched⟩ := by
  unfold processRound
  rw [if_neg hpos]
  simp

theorem processRound_dec (cfg : Config) (prims : Prims) (oracle : Int → Option Bytes)
    (acc : DecState) (g : Int × List PendItem) :
    ∃ sig, (processRound cfg prims oracle acc g).dec =
      g.2.foldl (decWrite cfg prims sig) acc.dec := by
  unfold processRound
  by_cases hpos : g.1 > 0
  · rw [if_pos hpos]
    cases hg : getSigCached oracle acc.cache g.1 with
    | mk sig rest =>
        cases rest with
        | mk cache' att => exact ⟨sig, rfl⟩
  · rw [if_neg hpos]
    exact ⟨none, rfl⟩

theorem processRound_fetched (cfg : Config) (prims : Prims) (oracle : Int → Option Bytes)
    (acc : DecState) (g : Int × List PendItem) :
    ∀ r ∈ (processRound cfg prims oracle acc g).fetched, r ∈ acc.fetched ∨ 0 < r := by
  unfold processRound
  by_cases hpos : g.1 > 0
  · rw [if_pos hpos]
    cases hg : getSigCached oracle acc.cache g.1 with
    | mk sig rest =>
        cases rest with
        | mk cache' att =>
            intro r hr
            cases att with
            | true =>
                rcases List.mem_append.mp hr with h | h
                · exact Or.inl h
                · right
                  have hrg : r = g.1 := by simpa using h
                  rw [hrg]
                  exact hpos
            | false =>
                rcases List.mem_append.mp hr with h | h
                · exact Or.inl h
                · simp at h
  · rw [if_neg hpos]
    intro r hr
    rcases List.mem_append.mp hr with h | h
    · exact Or.inl h
    · simp at h

theorem decryptPhase_fetched_pos (cfg : Config) (prims : Prims) (oracle : Int → Option Bytes) :
    ∀ (rounds : List (Int × List PendItem)) (acc : DecState),
      (∀ r ∈ acc.fetched, 0 < r) →
      ∀ r ∈ (rounds.foldl (processRound cfg prims oracle) acc).fetched, 0 < r := by
  intro rounds
  induction rounds with
  | nil =>
      intro acc hacc
      exact hacc
  | cons g rest ih =>
      intro acc hacc
      rw [List.foldl_cons]
      apply ih
      intro r hr
      rcases processRound_fetched cfg prims oracle acc g r hr with h | h
      · exact hacc r h
      · exact h

theorem decryptPhase_zero (cfg : Config) (prims : Prims) (oracle : Int → Option Bytes)
    (ts : Nat) (hk : PyStr) :
    ∀ (rounds : List (Int × List PendItem)) (acc : DecState),
      (∀ g ∈ rounds, ∀ it ∈ g.2, it.ts = ts ∧ it.hk = hk → g.1 ≤ 0) →
      (hasItem ts hk rounds ∨ decLookup acc.dec ts hk = some (zero_vecs cfg)) →
      decLookup (rounds.foldl (processRound cfg prims oracle) acc).dec ts hk =
        some (zero_vecs cfg) := by
  intro rounds
  induction rounds with
  | nil =>
      intro acc _ hex
      rcases hex with hex | hdone
      · obtain ⟨g, hg, _⟩ := hex
        exact absurd hg (List.not_mem_nil _)
      · exact hdone
  | cons g rest ih =>
      intro acc hb hex
      rw [List.foldl_cons]
      apply ih _ (fun g' hg' => hb g' (List.mem_cons_of_mem _ hg'))
      rcases hex with hex | hdone
      · by_cases hrest : hasItem ts hk rest
        · exact Or.inl hrest
        · right
          have hg : ∃ it ∈ g.2, it.ts = ts ∧ it.hk = hk := by
            obtain ⟨g', hg', it, hit, hm⟩ := hex
            rcases List.mem_cons.mp hg' with heq | hg''
            · subst heq
              exact ⟨it, hit, hm⟩
            · exact absurd ⟨g', hg'', it, hit, hm⟩ hrest
          obtain ⟨it0, hit0, hm0⟩ := hg
          have hle : g.1 ≤ 0 := hb g (List.mem_cons_self _ _) it0 hit0 hm0
          rw [processRound_nonpos cfg prims oracle acc g (not_lt.mpr hle)]
          exact foldl_decWrite_zero cfg prims ts hk g.2 acc.dec ⟨it0, hit0, hm0⟩
      · right
        by_cases hghas : ∃ it ∈ g.2, it.ts = ts ∧ it.hk = hk
        · obtain ⟨it0, hit0, hm0⟩ := hghas
          have hle : g.1 ≤ 0 := hb g (List.mem_cons_self _ _) it0 hit0 hm0
          rw [processRound_nonpos cfg prims oracle acc g (not_lt.mpr hle)]
          exact foldl_decWrite_zero cfg prims ts hk g.2 acc.dec ⟨it0, hit0, hm0⟩
        · obtain ⟨sig, hdec⟩ := processRound_dec cfg prims oracle acc g
          rw [hdec, foldl_decWrite_preserve cfg prims sig ts hk g.2 acc.dec
              (fun it hit hc => hghas ⟨it, hit, hc⟩)]
          exact hdone

theorem hasItem_dictModify {ts : Nat} {hk : PyStr} :
    ∀ (groups : List (Int × List PendItem)) (key : Int) (x : PendItem),
      hasItem ts hk groups → hasItem ts hk (dictModify groups key [] (fun l => l ++ [x])) := by
  intro groups
  induction groups with
  | nil =>
      intro key x h
      obtain ⟨g, hg, _⟩ := h
      exact absurd hg (List.not_mem_nil _)
  | cons q rest ih =>
      intro key x h
      obtain ⟨g, hg, it, hit, hm⟩ := h
      unfold dictModify
      by_cases hq : q.1 = key
      · rw [if_pos hq]
        rcases List.mem_cons.mp hg with heq | hg'
        · subst heq
          exact ⟨(key, g.2 ++ [x]), List.mem_cons_self _ _, it, List.mem_append_left _ hit, hm⟩
        · exact ⟨g, List.mem_cons_of_mem _ hg', it, hit, hm⟩
      · rw [if_neg hq]
        rcases List.mem_cons.mp hg with heq | hg'
        · subst heq
          exact ⟨g, List.mem_cons_self _ _, it, hit, hm⟩
        · obtain ⟨g', hg'', it', hit', hm'⟩ := ih key x ⟨g, hg', it, hit, hm⟩
          exact ⟨g', List.mem_cons_of_mem _ hg'', it', hit', hm'⟩

theorem hasItem_dictModify_self {ts : Nat} {hk : PyStr} :
    ∀ (groups : List (Int × List PendItem)) (key : Int) (x : PendItem),
      x.ts = ts → x.hk = hk →
      hasItem ts hk (dictModify groups key [] (fun l => l ++ [x])) := by
  intro groups
  induction groups with
  | nil =>
      intro key x hx1 hx2
      exact ⟨(key, [x]), by simp [dictModify], x, List.mem_cons_self _ _, hx1, hx2⟩
  | cons q rest ih =>
      intro key x hx1 hx2
      unfold dictModify
      by_cases hq : q.1 = key
      · rw [if_pos hq]
        exact ⟨(key, q.2 ++ [x]), List.mem_cons_self _ _, x,
          List.mem_append_right _ (List.mem_cons_self _ _), hx1, hx2⟩
      · rw [if_neg hq]
        obtain ⟨g, hg, it, hit, hm⟩ := ih key x hx1 hx2
        exact ⟨g, List.mem_cons_of_mem _ hg, it, hit, hm⟩

theorem dictModify_append_src :
    ∀ (groups : List (Int × List PendItem)) (key : Int) (x : PendItem),
      ∀ g ∈ dictModify groups key [] (fun l => l ++ [x]), ∀ it ∈ g.2,
        (∃ g0 ∈ groups, it ∈ g0.2 ∧ g0.1 = g.1) ∨ (it = x ∧ g.1 = key) := by
  intro groups
  induction groups with
  | nil =>
      intro key x g hg it hit
      simp only [dictModify, List.nil_append, List.mem_singleton] at hg
      subst hg
      right
      exact ⟨by simpa using hit, rfl⟩
  | cons q rest ih =>
      intro key x g hg it hit
      unfold dictModify at hg
      by_cases hq : q.1 = key
      · rw [if_pos hq] at hg
        rcases List.mem_cons.mp hg with heq | hg'
        · subst heq
          rcases List.mem_append.mp hit with hit' | hit'
          · left
            exact ⟨q, List.mem_cons_self _ _, hit', hq⟩
          · right
            exact ⟨by simpa using hit', rfl⟩
        · left
          exact ⟨g, List.mem_cons_of_mem _ hg', hit, rfl⟩
      · rw [if_neg hq] at hg
        rcases List.mem_cons.mp hg with heq | hg'
        · subst heq
          left
          exact ⟨g, List.mem_cons_self _ _, hit, rfl⟩
        · rcases ih key x g hg' it hit with ⟨g0, hg0, hit0, hk0⟩ | hx
          · left
            exact ⟨g0, List.mem_cons_of_mem _ hg0, hit0, hk0⟩
          · right
            exact hx

theorem collectItem_hasItem {ts : Nat} {hk : PyStr} (ts0 : Nat)
    (acc : List (Nat × PyStr) × List (Int × List PendItem)) (p : PyStr × RawPayload)
    (h : hasItem ts hk acc.2) : hasItem ts hk (collectItem ts0 acc p).2 := by
  simp only [collectItem]
  split
  · exact hasItem_dictModify _ _ _ h
  · exact h

theorem collectItem_hasItem_self (ts0 : Nat)
    (acc : List (Nat × PyStr) × List (Int × List PendItem)) (p : PyStr × RawPayload)
    (hv : payloadVersion (rawData p.2) ≠ 0) :
    hasItem ts0 p.1 (collectItem ts0 acc p).2 := by
  simp only [collectItem]
  rw [if_pos hv]
  exact hasItem_dictModify_self _ _ _ rfl rfl

theorem collectItem_src (ts0 : Nat) (acc : List (Nat × PyStr) × List (Int × List PendItem))
    (p : PyStr × RawPayload) :
    ∀ g ∈ (collectItem ts0 acc p).2, ∀ it ∈ g.2,
      (∃ g0 ∈ acc.2, it ∈ g0.2 ∧ g0.1 = g.1) ∨
      (it = ⟨ts0, p.1, rawData p.2, payloadVersion (rawData p.2)⟩ ∧
        g.1 = roundKey (rawData p.2)) := by
  intro g hg it hit
  simp only [collectItem] at hg
  split at hg
  · exact dictModify_append_src acc.2 _ _ g hg it hit
  · left
    exact ⟨g, hg, hit, rfl⟩

theorem foldl_collectItem_hasItem {ts : Nat} {hk : PyStr} (ts0 : Nat) :
    ∀ (items : List (PyStr × RawPayload))
      (acc : List (Nat × PyStr) × List (Int × List PendItem)),
      hasItem ts hk acc.2 → hasItem ts hk (items.foldl (collectItem ts0) acc).2 := by
  intro items
  induction items with
  | nil =>
      intro acc h
      exact h
  | cons p rest ih =>
      intro acc h
      rw [List.foldl_cons]
      exact ih _ (collectItem_hasItem ts0 acc p h)

theorem foldl_collectItem_hasItem_self (ts0 : Nat) (hk : PyStr) (rp : RawPayload) :
    ∀ (items : List (PyStr × RawPayload))
      (acc : List (Nat × PyStr) × List (Int × List PendItem)),
      (hk, rp) ∈ items → payloadVersion (rawData rp) ≠ 0 →
      hasItem ts0 hk (items.foldl (collectItem ts0) acc).2 := by
  intro items
  induction items with
  | nil =>
      intro acc hmem
      exact absurd hmem (List.not_mem_nil _)
  | cons p rest ih =>
      intro acc hmem hv
      rw [List.foldl_cons]
      rcases List.mem_cons.mp hmem with heq | hmem'
      · apply foldl_collectItem_hasItem ts0 rest _
        have hp1 : p.1 = hk := by rw [← heq]
        have hp2 : rawData p.2 = rawData rp := by rw [← heq]
        rw [← hp1]
        exact collectItem_hasItem_self ts0 acc p (by rw [hp2]; exact hv)
      · exact ih (collectItem ts0 acc p) hmem' hv

theorem foldl_collectItem_src (ts0 : Nat) :
    ∀ (items : List (PyStr × RawPayload))
      (acc : List (Nat × PyStr) × List (Int × List PendItem)),
      ∀ g ∈ (items.foldl (collectItem ts0) acc).2, ∀ it ∈ g.2,
        (∃ g0 ∈ acc.2, it ∈ g0.2 ∧ g0.1 = g.1) ∨
        (∃ rp, (it.hk, rp) ∈ items ∧ it.ts = ts0 ∧ g.1 = roundKey (rawData rp)) := by
  intro items
  induction items with
  | nil =>
      intro acc g hg it hit
      left
      exact ⟨g, hg, hit, rfl⟩
  | cons p rest ih =>
      intro acc g hg it hit
      rw [List.foldl_cons] at hg
      rcases ih (collectItem ts0 acc p) g hg it hit with ⟨g0, hg0, hit0, hkey⟩ | ⟨rp, hrp, hits, hkey⟩
      · rcases collectItem_src ts0 acc p g0 hg0 it hit0 with ⟨g1, hg1, hit1, hkey1⟩ | ⟨hxeq, hkey1⟩
        · left
          exact ⟨g1, hg1, hit1, by rw [hkey1]; exact hkey⟩
        · right
          refine ⟨p.2, ?_, ?_, ?_⟩
          · rw [hxeq]
            exact List.mem_cons_self _ _
          · rw [hxeq]
          · rw [← hkey]
            exact hkey1
      · right
        exact ⟨rp, List.mem_cons_of_mem _ hrp, hits, hkey⟩

theorem collectEntry_hasItem {blocks : List Int} {current : Int}
    {acc acc' : List (Nat × PyStr) × List (Int × List PendItem)}
    {entry : Nat × List (PyStr × RawPayload)} {ts : Nat} {hk : PyStr}
    (h : collectEntry blocks current acc entry = some acc')
    (hh : hasItem ts hk acc.2) : hasItem ts hk acc'.2 := by
  unfold collectEntry at h
  cases hb : blocks.get? entry.1 with
  | none =>
      simp only [hb] at h
      exact Option.noConfusion h
  | some b =>
      simp only [hb] at h
      split at h <;> simp only [Option.some.injEq] at h <;> subst h
      · exact foldl_collectItem_hasItem _ _ _ hh
      · exact hh

theorem collectEntry_src {blocks : List Int} {current : Int}
    {acc acc' : List (Nat × PyStr) × List (Int × List PendItem)}
    {entry : Nat × List (PyStr × RawPayload)}
    (h : collectEntry blocks current acc entry = some acc') :
    ∀ g ∈ acc'.2, ∀ it ∈ g.2,
      (∃ g0 ∈ acc.2, it ∈ g0.2 ∧ g0.1 = g.1) ∨
      (∃ rp, (it.hk, rp) ∈ entry.2 ∧ it.ts = entry.1 ∧ g.1 = roundKey (rawData rp)) := by
  unfold collectEntry at h
  cases hb : blocks.get? entry.1 with
  | none =>
      simp only [hb] at h
      exact Option.noConfusion h
  | some b =>
      simp only [hb] at h
      split at h <;> simp only [Option.some.injEq] at h <;> subst h
      · exact fun g hg it hit => foldl_collectItem_src entry.1 entry.2 acc g hg it hit
      · intro g hg it hit
        left
        exact ⟨g, hg, hit, rfl⟩

theorem collectFold_hasItem (blocks : List Int) (current : Int) {ts : Nat} {hk : PyStr} :
    ∀ (payloads : List (Nat × List (PyStr × RawPayload)))
      (acc mr : List (Nat × PyStr) × List (Int × List PendItem)),
      payloads.foldl (collectStep blocks current) (some acc) = some mr →
      hasItem ts hk acc.2 → hasItem ts hk mr.2 := by
  intro payloads
  induction payloads with
  | nil =>
      intro acc mr h hh
      simp only [List.foldl_nil, Option.some.injEq] at h
      subst h
      exact hh
  | cons e rest ih =>
      intro acc mr h hh
      rw [List.foldl_cons, collectStep_some] at h
      cases hstep : collectEntry blocks current acc e with
      | none =>
          rw [hstep, foldl_collectStep_none] at h
          exact Option.noConfusion h
      | some acc1 =>
          rw [hstep] at h
          exact ih acc1 mr h (collectEntry_hasItem hstep hh)

theorem collectFold_hasItem_intro (blocks : List Int) (current : Int) :
    ∀ (payloads : List (Nat × List (PyStr × RawPayload)))
      (acc mr : List (Nat × PyStr) × List (Int × List PendItem)),
      payloads.foldl (collectStep blocks current) (some acc) = some mr →
      ∀ (ts : Nat) (inner : List (PyStr × RawPayload)) (b : Int) (hk : PyStr) (rp : RawPayload),
        (ts, inner) ∈ payloads → blocks.get? ts = some b → current - b ≥ 300 →
        (hk, rp) ∈ inner → payloadVersion (rawData rp) ≠ 0 →
        hasItem ts hk mr.2 := by
  intro payloads
  induction payloads with
  | nil =>
      intro acc mr h ts inner b hk rp hmem
      exact absurd hmem (List.not_mem_nil _)
  | cons e rest ih =>
      intro acc mr h ts inner b hk rp hmem hb hmat hin hv
      rw [List.foldl_cons, collectStep_some] at h
      cases hstep : collectEntry blocks current acc e with
      | none =>
          rw [hstep, foldl_collectStep_none] at h
          exact Option.noConfusion h
      | some acc1 =>
          rw [hstep] at h
          rcases List.mem_cons.mp hmem with heq | hmem'
          · subst heq
            rw [collectEntry_mature hb hmat] at hstep
            simp only [Option.some.injEq] at hstep
            subst hstep
            apply collectFold_hasItem blocks current rest _ mr h
            exact foldl_collectItem_hasItem_self ts hk rp inner acc hin hv
          · exact ih acc1 mr h ts inner b hk rp hmem' hb hmat hin hv

theorem collectFold_src (blocks : List Int) (current : Int) :
    ∀ (payloads : List (Nat × List (PyStr × RawPayload)))
      (acc mr : List (Nat × PyStr) × List (Int × List PendItem)),
      payloads.foldl (collectStep blocks current) (some acc) = some mr →
      ∀ g ∈ mr.2, ∀ it ∈ g.2,
        (∃ g0 ∈ acc.2, it ∈ g0.2 ∧ g0.1 = g.1) ∨
        (∃ inner rp, (it.ts, inner) ∈ payloads ∧ (it.hk, rp) ∈ inner ∧
          g.1 = roundKey (rawData rp)) := by
  intro payloads
  induction payloads with
  | nil =>
      intro acc mr h g hg it hit
      simp only [List.foldl_nil, Option.some.injEq] at h
      subst h
      left
      exact ⟨g, hg, hit, rfl⟩
  | cons e rest ih =>
      intro acc mr h g hg it hit
      rw [List.foldl_cons, collectStep_some] at h
      cases hstep : collectEntry blocks current acc e with
      | none =>
          rw [hstep, foldl_collectStep_none] at h
          exact Option.noConfusion h
      | some acc1 =>
          rw [hstep] at h
          rcases ih acc1 mr h g hg it hit with ⟨g0, hg0, hit0, hkey⟩ | ⟨inner, rp, h1, h2, h3⟩
          · rcases collectEntry_src hstep g0 hg0 it hit0 with
              ⟨g1, hg1, hit1, hkey1⟩ | ⟨rp, hrp, hits, hkey1⟩
            · left
              exact ⟨g1, hg1, hit1, by rw [hkey1]; exact hkey⟩
            · right
              refine ⟨e.2, rp, ?_, hrp, by rw [← hkey]; exact hkey1⟩
              rw [hits]
              exact List.mem_cons_self _ _
          · right
            exact ⟨inner, rp, List.mem_cons_of_mem _ h1, h2, h3⟩

/-- C10: a mature pending item that parses as a versioned payload but whose
round key is not strictly positive is zero-filled for every challenge, no
beacon fetch is attempted for its round group (every fetched round is
positive), and the entry is still removed from the pending map. -/
theorem C10_nonpositive_round (cfg : Config) (prims : Prims) (oracle : Int → Option Bytes)
    (st : DataLogState) (out : ProcessOut) (current : Int) (ts : Nat) (b : Int)
    (inner : List (PyStr × RawPayload)) (hk : PyStr) (rp : RawPayload)
    (hndr : (st.raw_payloads.map Prod.fst).Nodup)
    (hndi : (inner.map Prod.fst).Nodup)
    (hcur : st.blocks.getLast? = some current)
    (hb : st.blocks.get? ts = some b)
    (hmat : current - b ≥ 300)
    (hl : dictLookup st.raw_payloads ts = some inner)
    (hrp : dictLookup inner hk = some rp)
    (hv : payloadVersion (rawData rp) ≠ 0)
    (hr : roundKey (rawData rp) ≤ 0)
    (hcore : process_pending_core cfg prims oracle st = some out) :
    decLookup out.dec ts hk = some (zero_vecs cfg) ∧
    (∀ r ∈ out.fetched, 0 < r) ∧
    (dictLookup out.state.raw_payloads ts).bind (fun i => dictLookup i hk) = none := by
  have hrne : st.raw_payloads.isEmpty = false := by
    cases hrpl : st.raw_payloads with
    | nil =>
        rw [hrpl] at hl
        simp [dictLookup] at hl
    | cons q qs => rfl
  unfold process_pending_core at hcore
  rw [hrne] at hcore
  simp only [Bool.false_eq_true, if_false] at hcore
  simp only [hcur] at hcore
  cases hcm : collectMature st.blocks current st.raw_payloads with
  | none =>
      simp only [hcm] at hcore
      exact Option.noConfusion hcore
  | some mr =>
      simp only [hcm] at hcore
      have hcm' : st.raw_payloads.foldl (collectStep st.blocks current) (some ([], [])) =
          some mr := hcm
      have hkmem : hk ∈ inner.map Prod.fst := mem_keys_of_lookup hrp
      have hmrmem : (ts, hk) ∈ mr.1 :=
        collectFold_mature_mem st.blocks current st.raw_payloads ([], []) mr hcm'
          ts inner b (dictLookup_mem hl) hb hmat hk hkmem
      have hemp : mr.1.isEmpty = false := by
        cases hmr1 : mr.1 with
        | nil =>
            rw [hmr1] at hmrmem
            exact absurd hmrmem (List.not_mem_nil _)
        | cons a l => rfl
      rw [hemp] at hcore
      simp only [Bool.false_eq_true, if_false] at hcore
      have hhas : hasItem ts hk mr.2 :=
        collectFold_hasItem_intro st.blocks current st.raw_payloads ([], []) mr hcm'
          ts inner b hk rp (dictLookup_mem hl) hb hmat (dictLookup_mem hrp) hv
      have hbound : ∀ g ∈ mr.2, ∀ it ∈ g.2, it.ts = ts ∧ it.hk = hk → g.1 ≤ 0 := by
        intro g hg it hit hm
        rcases collectFold_src st.blocks current st.raw_payloads ([], []) mr hcm' g hg it hit
          with ⟨g0, hg0, _⟩ | ⟨inner', rp', h1, h2, h3⟩
        · exact absurd hg0 (List.not_mem_nil _)
        · rw [hm.1] at h1
          have hinner : inner' = inner := by
            have h4 := dictLookup_of_mem_nodup hndr h1
            rw [hl] at h4
            exact (Option.some_inj.mp h4).symm
          rw [hm.2, hinner] at h2
          have hrpe : rp' = rp := by
            have h5 := dictLookup_of_mem_nodup hndi h2
            rw [hrp] at h5
            exact (Option.some_inj.mp h5).symm
          rw [h3, hrpe]
          exact hr
      cases hmg : mergeDec cfg st.blocks st.challenges
          (decryptPhase cfg prims oracle st.drand_cache mr.2).dec with
      | none =>
          simp only [hmg] at hcore
          exact Option.noConfusion hcore
      | some chs' =>
          simp only [hmg, Option.some.injEq] at hcore
          subst hcore
          refine ⟨?_, ?_, ?_⟩
          · show decLookup (decryptPhase cfg prims oracle st.drand_cache mr.2).dec ts hk =
              some (zero_vecs cfg)
            exact decryptPhase_zero cfg prims oracle ts hk mr.2 ⟨[], st.drand_cache, []⟩
              hbound (Or.inl hhas)
          · show ∀ r ∈ (decryptPhase cfg prims oracle st.drand_cache mr.2).fetched, 0 < r
            exact decryptPhase_fetched_pos cfg prims oracle mr.2 ⟨[], st.drand_cache, []⟩
              (fun r hr => absurd hr (List.not_mem_nil _))
          · show (dictLookup (removeMature st.raw_payloads mr.1) ts).bind
              (fun i => dictLookup i hk) = none
            refine removeMature_pop mr.1 st.raw_payloads ts hk hndr ?_ hmrmem
            intro inner0 h0
            rw [hl] at h0
            rw [← Option.some_inj.mp h0]
            exact hndi

/-- Witness for C10 on a mature V2 payload with no round field. -/
theorem C10_nonpositive_round_witness :
    decLookup outC10.dec 0 ("h1".toList) = some (zero_vecs cfgW) ∧
    (dictLookup outC10.state.raw_payloads 0).bind
      (fun i => dictLookup i ("h1".toList)) = none := by
  have h := C10_nonpositive_round cfgW primsW (fun _ => none) stC10 outC10 400 0 0
    [(("h1".toList), RawPayload.parsed payloadC10)] ("h1".toList)
    (RawPayload.parsed payloadC10)
    (by decide) (by decide) rfl rfl (by decide) rfl rfl (by decide) (by decide) rfl
  exact ⟨h.1, h.2.2⟩

end Mantis
